import Mathlib

/-!
# LumenTV updater (`updater/main.go`): a shallow embedding

The updater backs up an installation directory, purges it, extracts a zip
archive into it and rolls back from the backup when a destructive stage fails.

Conventions of the embedding

* A Go `string` is the list of its code points (`GoString`).
* Paths follow the Unix flavour of `path/filepath` (separator `/`, no volume
  names). `filepath.Clean`, `Join`, `Base` and `Dir` work on strings.
* The file system is a finite table from absolute paths, given by their
  elements, to nodes (directories and regular files); permissions and symbolic
  links are not represented, and reading an archive entry never fails.
* `filepath.Walk` and the functions it calls work on paths given by their
  elements; a string is resolved to such a path by `fspath.parsePath`. A walk
  carries a bound on the nesting depth and ends with an error beyond it.
* Functions that change the file system take it as an argument and return
  their Go error (`none` for `nil`) together with the file system they leave.
* `main` is written over arbitrary stage functions (`Stages`) and returns the
  list of the stage calls it made; `osStages` are the stages on the file system.
-/

set_option autoImplicit false

namespace Updater

/-- A Go string, as the sequence of its code points. -/
abbrev GoString := List Char

/-! ## Package `strings` -/

namespace strings

/-- Go `strings.HasPrefix`. -/
def HasPrefix (s pre : GoString) : Bool := pre.isPrefixOf s

/-- Go `strings.HasSuffix`. -/
def HasSuffix (s suf : GoString) : Bool := suf.isSuffixOf s

/-- Go `strings.ToLower`, on the ASCII letters. (No code point outside ASCII
lower-cases to a letter of `app` or `lumentv`, the only words the updater
compares a lower-cased string with.) -/
def ToLower (s : GoString) : GoString := s.map Char.toLower

/-- Go `strings.EqualFold`, with ASCII case folding only: letters outside ASCII
are compared as they are. -/
def EqualFold (s t : GoString) : Bool := ToLower s == ToLower t

/-- Go `strings.Contains`: `sub` occurs in `s` as a contiguous block. -/
def Contains : GoString → GoString → Bool
  | [], sub => sub.isEmpty
  | c :: cs, sub => sub.isPrefixOf (c :: cs) || Contains cs sub

/-- Go `strings.Split(s, sep)` for a separator of one character: the pieces
between the separators, `[""]` for the empty string. -/
def Split : GoString → Char → List GoString
  | [], _ => [[]]
  | c :: cs, sep =>
    if c = sep then [] :: Split cs sep
    else
      match Split cs sep with
      | [] => [[c]]
      | x :: xs => (c :: x) :: xs

/-- Go `strings.TrimLeft`: drop the leading characters that occur in `cutset`. -/
def TrimLeft (s cutset : GoString) : GoString := s.dropWhile (fun c => cutset.contains c)

/-- Go `strings.TrimRight`: drop the trailing characters that occur in `cutset`. -/
def TrimRight (s cutset : GoString) : GoString :=
  (s.reverse.dropWhile (fun c => cutset.contains c)).reverse

/-- Go `strings.Trim`: drop leading and trailing characters that occur in `cutset`. -/
def Trim (s cutset : GoString) : GoString := TrimRight (TrimLeft s cutset) cutset

/-- Go `strings.Join(elems, sep)`. -/
def Join (elems : List GoString) (sep : GoString) : GoString := sep.intercalate elems

end strings

/-! ## Package `path/filepath` (Unix) -/

namespace filepath

/-- Go `filepath.Separator` on Unix. -/
def Separator : Char := '/'

/-- One step of the element loop of `filepath.Clean`. `stack` holds the
elements written so far, the last one first. An empty element and `.` are
dropped; `..` removes the last real element, is dropped at the root of a rooted
path, and is kept at the front of a relative one; any other element is
appended. -/
def cleanStep (rooted : Bool) (stack : List GoString) (e : GoString) : List GoString :=
  if e = [] ∨ e = ['.'] then stack
  else if e = ['.', '.'] then
    match stack with
    | [] => if rooted then [] else [e]
    | top :: rest => if top = ['.', '.'] then e :: top :: rest else rest
  else e :: stack

/-- The elements `filepath.Clean` keeps, in path order. -/
def cleanElems (path : GoString) : List GoString :=
  ((strings.Split path Separator).foldl (cleanStep (strings.HasPrefix path [Separator])) []).reverse

/-- Go `filepath.Clean`: the shortest path equivalent to `path` by purely
lexical processing; `.` for the empty result. -/
def Clean (path : GoString) : GoString :=
  let out := (if strings.HasPrefix path [Separator] then [Separator] else [])
    ++ strings.Join (cleanElems path) [Separator]
  if out = [] then ['.'] else out

/-- Go `filepath.Join`: the elements from the first non-empty one on are joined
with the separator and the result is cleaned; `""` when all are empty. -/
def Join : List GoString → GoString
  | [] => []
  | e :: es => if e = [] then Join es else Clean (strings.Join (e :: es) [Separator])

/-- Go `filepath.Base`: the last element of `path`, trailing separators
removed first; `.` for the empty path and `/` for a path of separators only. -/
def Base (path : GoString) : GoString :=
  if path = [] then ['.']
  else
    let p := strings.TrimRight path [Separator]
    let last := (p.reverse.takeWhile (fun c => c != Separator)).reverse
    if last = [] then [Separator] else last

/-- Go `filepath.Dir`: everything up to and including the last separator,
cleaned. -/
def Dir (path : GoString) : GoString :=
  Clean (path.reverse.dropWhile (fun c => c != Separator)).reverse

end filepath

/-! ## Path resolution in `main` -/

/-- Lines 33 to 44 of `main`: the target directory resolved from the `-path`
argument. -/
def resolveTarget (path : GoString) : GoString :=
  let pathBase := filepath.Base (strings.TrimRight path [filepath.Separator])
  let targetPath :=
    if strings.ToLower pathBase = "app".toList then filepath.Dir path else path
  if !strings.HasSuffix targetPath [filepath.Separator] then
    targetPath ++ [filepath.Separator]
  else targetPath

/-- Line 69 of `main`: the backup path. -/
def backupPathOf (targetPath : GoString) : GoString := targetPath ++ ".backup".toList

/-! ## Archive entries and root-folder detection -/

/-- One entry of the opened archive (`*zip.File`): its name, whether its
external attributes carry the directory bit, and its bytes. -/
structure ZipFile where
  /-- The entry name, with forward slashes. -/
  Name : GoString
  /-- The directory bit of the mode stored in the entry. -/
  modeDir : Bool
  /-- The uncompressed content. -/
  content : GoString
  deriving DecidableEq

/-- Go `f.FileInfo().IsDir()`: `FileHeader.Mode` sets the directory bit from the
stored mode and also whenever the name ends in a slash. -/
def ZipFile.IsDir (f : ZipFile) : Bool :=
  f.modeDir || strings.HasSuffix f.Name "/".toList

/-- Go map lookup `m[k]` with the presence flag. -/
def mapGet (m : List (GoString × Nat)) (k : GoString) : Option Nat :=
  match m with
  | [] => none
  | (k1, v) :: rest => if k1 = k then some v else mapGet rest k

/-- Go `m[k]++` on a map of counters. -/
def mapIncr (m : List (GoString × Nat)) (k : GoString) : List (GoString × Nat) :=
  match m with
  | [] => [(k, 1)]
  | (k1, v) :: rest => if k1 = k then (k1, v + 1) :: rest else (k1, v) :: mapIncr rest k

/-- The local variables of `detectRootFolder`. -/
structure DetectState where
  /-- The map `folderCount`. -/
  folderCount : List (GoString × Nat)
  /-- The counter `fileCount`. -/
  fileCount : Nat
  /-- The slice `rootFolders`. -/
  rootFolders : List GoString

/-- The body of the loop of `detectRootFolder` (lines 282 to 297). -/
def detectStep (st : DetectState) (f : ZipFile) : DetectState :=
  if f.IsDir && !strings.HasSuffix f.Name "/".toList then st
  else
    match strings.Split (strings.Trim f.Name "/".toList) '/' with
    | [] => st
    | folderName :: _ =>
      if folderName ≠ [] then
        { folderCount := mapIncr st.folderCount folderName
          fileCount := st.fileCount + 1
          rootFolders :=
            if (mapGet st.folderCount folderName).isNone then st.rootFolders ++ [folderName]
            else st.rootFolders }
      else st

/-- The application-name test of lines 308 and 309. -/
def looksLikeAppRoot (rootFolder : GoString) : Bool :=
  strings.Contains (strings.ToLower rootFolder) "lumentv".toList ||
    strings.Contains (strings.ToLower rootFolder) "app".toList

/-- Go `detectRootFolder`: the folder to strip, `""` for none. -/
def detectRootFolder (files : List ZipFile) : GoString :=
  let st := files.foldl detectStep { folderCount := [], fileCount := 0, rootFolders := [] }
  match st.rootFolders with
  | [rootFolder] => if looksLikeAppRoot rootFolder then rootFolder else []
  | _ => []

/-- Lines 224 to 235 of `extractZip`: the path an entry is extracted to. -/
def entryPath (rootFolder dest : GoString) (f : ZipFile) : GoString :=
  if rootFolder ≠ [] ∧ strings.HasPrefix f.Name (rootFolder ++ "/".toList) = true then
    let relativePath := f.Name.drop (rootFolder.length + 1)
    filepath.Join [dest, relativePath]
  else filepath.Join [dest, f.Name]

/-- Line 238 of `extractZip`: whether the entry is skipped. -/
def skipEntry (rootFolder dest fpath : GoString) : Bool :=
  fpath == dest || fpath == dest ++ "/".toList || filepath.Base fpath == rootFolder

/-! ## The file system -/

/-- An absolute path, as the list of its elements from the root. -/
abbrev Path := List GoString

/-- A node of the file system: a directory or a regular file with its bytes. -/
inductive Node where
  | dir
  | file (data : GoString)
  deriving DecidableEq, Inhabited

/-- Go `FileInfo.IsDir`. -/
def Node.IsDir : Node → Bool
  | .dir => true
  | .file _ => false

/-- Whether the node is a regular file. -/
def Node.isFile : Node → Bool
  | .dir => false
  | .file _ => true

/-- Whether a lookup found a regular file. -/
def isFileAt : Option Node → Bool
  | some n => n.isFile
  | none => false

/-- The file system: the table of the nodes below the root. The first entry
of a path is the one that counts. -/
abbrev FS := List (Path × Node)

/-- The error values that occur. -/
inductive Errno where
  | ENOENT
  | EEXIST
  | ENOTDIR
  | EISDIR
  | ENOTEMPTY
  | EINVAL
  | EBUSY
  /-- Go `filepath.SkipDir`. -/
  | SkipDir
  /-- Go `filepath.SkipAll`. -/
  | SkipAll
  /-- The error of `filepath.Rel`. -/
  | relError
  /-- The error built at line 204, with the number of attempts. -/
  | attemptsExhausted (n : Nat)
  /-- The directory tree is deeper than the walk bound. -/
  | tooDeep
  /-- The archive could not be opened. -/
  | badArchive
  deriving DecidableEq

deriving instance DecidableEq for Except

/-- A Go `error`; `none` is `nil`. -/
abbrev Error := Option Errno

/-- Go `os.IsNotExist`. -/
def IsNotExist (err : Error) : Bool := err == some Errno.ENOENT

/-- The rest of `q` after the elements of `p`, when `q` starts with them. -/
def stripPath : Path → Path → Option Path
  | [], q => some q
  | _ :: _, [] => none
  | a :: p, b :: q => if a = b then stripPath p q else none

/-- The order of `sort.Strings`. -/
def strLe : GoString → GoString → Bool
  | [], _ => true
  | _ :: _, [] => false
  | a :: s, b :: t => decide (a.toNat < b.toNat) || (a == b && strLe s t)

/-- Insertion into a list sorted by `strLe`. -/
def insertSorted (x : GoString) : List GoString → List GoString
  | [] => [x]
  | y :: ys => if strLe x y then x :: y :: ys else y :: insertSorted x ys

/-- Go `sort.Strings`. -/
def sortStrings (l : List GoString) : List GoString := l.foldr insertSorted []

namespace os

/-- The raw table lookup. -/
def find : FS → Path → Option Node
  | [], _ => none
  | (q, n) :: rest, p => if q = p then some n else find rest p

/-- The node at a path; the root is a directory. -/
def stat (s : FS) (p : Path) : Option Node :=
  if p = [] then some Node.dir else find s p

/-- The table with the entries of `p` removed. -/
def erase (s : FS) (p : Path) : FS := s.filter (fun e => decide (e.1 ≠ p))

/-- The table with `p` bound to `n`. -/
def set (s : FS) (p : Path) (n : Node) : FS := (p, n) :: erase s p

/-- Go `os.Lstat` and `os.Stat`: `ENOTDIR` when an ancestor is a regular
file, `ENOENT` when nothing is there. -/
def Lstat (s : FS) (p : Path) : Except Errno Node :=
  match stat s p with
  | some n => .ok n
  | none =>
    if p.inits.any (fun q => isFileAt (stat s q)) then .error Errno.ENOTDIR
    else .error Errno.ENOENT

/-- The names of the entries directly below `p`, in table order. -/
def childNames (s : FS) (p : Path) : List GoString :=
  s.filterMap (fun e =>
    match stripPath p e.1 with
    | some [n] => some n
    | _ => none)

/-- The `readDirNames` of `path/filepath`: the entry names of a directory,
sorted. -/
def readDirNames (s : FS) (p : Path) : Except Errno (List GoString) :=
  match stat s p with
  | some Node.dir => .ok (sortStrings (childNames s p).dedup)
  | some (Node.file _) => .error Errno.ENOTDIR
  | none => .error Errno.ENOENT

/-- Go `os.Mkdir`. -/
def Mkdir (s : FS) (p : Path) : Except Errno FS :=
  match stat s p with
  | some _ => .error Errno.EEXIST
  | none =>
    match stat s p.dropLast with
    | some Node.dir => .ok (set s p Node.dir)
    | some (Node.file _) => .error Errno.ENOTDIR
    | none => .error Errno.ENOENT

/-- Go `os.MkdirAll`, on the path written last element first: nothing to do for
a directory, `ENOTDIR` for a file, else the parent is made and then the
directory itself. -/
def MkdirAllRev : List GoString → FS → Except Errno FS
  | [], s => .ok s
  | n :: rp, s =>
    match stat s (n :: rp).reverse with
    | some Node.dir => .ok s
    | some (Node.file _) => .error Errno.ENOTDIR
    | none =>
      match MkdirAllRev rp s with
      | .error e => .error e
      | .ok s1 =>
        match Mkdir s1 (n :: rp).reverse with
        | .ok s2 => .ok s2
        | .error e =>
          match Lstat s1 (n :: rp).reverse with
          | .ok Node.dir => .ok s1
          | _ => .error e

/-- Go `os.MkdirAll`. -/
def MkdirAll (p : Path) (s : FS) : Error × FS :=
  match MkdirAllRev p.reverse s with
  | .ok s1 => (none, s1)
  | .error e => (some e, s)

/-- Go `os.OpenFile(p, O_WRONLY|O_CREATE|O_TRUNC, perm)`: the file is created
empty or truncated. -/
def OpenFile (s : FS) (p : Path) : Except Errno FS :=
  match stat s p with
  | some Node.dir => .error Errno.EISDIR
  | some (Node.file _) => .ok (set s p (Node.file []))
  | none =>
    match stat s p.dropLast with
    | some Node.dir => .ok (set s p (Node.file []))
    | some (Node.file _) => .error Errno.ENOTDIR
    | none => .error Errno.ENOENT

/-- Whether some entry lies strictly below `p`. -/
def hasEntries (s : FS) (p : Path) : Bool :=
  s.any (fun e => decide (p.length < e.1.length) && p.isPrefixOf e.1)

/-- Go `os.Remove`: removes a file or an empty directory. The file system has
no permissions and no locks on open files: removing what exists and is not a
directory with entries always succeeds. -/
def Remove (p : Path) (s : FS) : Error × FS :=
  match stat s p with
  | none => (some Errno.ENOENT, s)
  | some (Node.file _) => (none, erase s p)
  | some Node.dir => if hasEntries s p then (some Errno.ENOTEMPTY, s) else (none, erase s p)

/-- Go `os.RemoveAll`: removes `p` and everything below it; no error when
nothing is there. As for `os.Remove`, a removal never fails here, so the
result is always `nil`. -/
def RemoveAll (p : Path) (s : FS) : Error × FS :=
  (none, s.filter (fun e => !p.isPrefixOf e.1))

/-- The entries of `s` below `old`, moved below `new`. -/
def moved (s : FS) (old new : Path) : FS :=
  s.filterMap (fun e =>
    match stripPath old e.1 with
    | some r => some (new ++ r, e.2)
    | none => none)

/-- Go `os.Rename`: an existing directory at the new path is refused; the old
path must exist, the parent of the new one must be a directory, and a directory
cannot move below itself. -/
def Rename (old new : Path) (s : FS) : Error × FS :=
  match stat s old with
  | none => (some Errno.ENOENT, s)
  | some n =>
    if stat s new = some Node.dir then (some Errno.EEXIST, s)
    else
      match stat s new.dropLast with
      | none => (some Errno.ENOENT, s)
      | some (Node.file _) => (some Errno.ENOTDIR, s)
      | some Node.dir =>
        if n.IsDir && isFileAt (stat s new) then (some Errno.ENOTDIR, s)
        else if old.isPrefixOf new then (some Errno.EINVAL, s)
        else
          (none, moved s old new ++
            s.filter (fun e => !old.isPrefixOf e.1 && !new.isPrefixOf e.1))

end os

/-! ## `filepath.Walk`, `filepath.Rel` and `filepath.Join` on walked paths -/

namespace fspath

/-- The string of a walked path: `/` and the elements joined by `/`. The walk
is taken from an absolute path, so the strings the walk function sees are
rooted; a relative starting path is resolved from the root directory first. -/
def pathString (p : Path) : GoString :=
  filepath.Separator :: strings.Join p [filepath.Separator]

/-- The path the system resolves a string to: empty elements and `.` are
dropped, `..` steps back, not beyond the root. -/
def parsePath (path : GoString) : Path :=
  ((strings.Split path filepath.Separator).foldl (filepath.cleanStep true) []).reverse

/-- The two paths without their longest common front. -/
def dropCommon : Path → Path → Path × Path
  | a :: p, b :: q => if a = b then dropCommon p q else (a :: p, b :: q)
  | p, q => (p, q)

/-- Go `filepath.Rel`: the elements that lead from `basepath` to `targpath`,
one `..` for each element of the base that is left after the common front;
the empty list stands for `.`. -/
def Rel (basepath targpath : Path) : Except Errno Path :=
  match dropCommon basepath targpath with
  | (b, t) =>
    if b.head? = some "..".toList then .error Errno.relError
    else .ok (b.map (fun _ => "..".toList) ++ t)

/-- Go `filepath.Join(p, rel)` for a relative path `rel`: its elements are
applied to `p` as `filepath.Clean` does. -/
def Join (p rel : Path) : Path :=
  (rel.foldl (filepath.cleanStep true) p.reverse).reverse

/-- Go `filepath.WalkFunc`: the path, the file information or the error that
stood in its way, and the file system; it returns its error and the file
system it leaves. -/
abbrev WalkFunc := Path → Except Errno Node → FS → Error × FS

/-- The loop over the names of a directory in `walk` (lines of `for _, name :=
range names`), with the recursive call passed as `rec`. -/
def walkNames (rec : Path → Node → FS → Error × FS) (walkFn : WalkFunc) (path : Path) :
    List GoString → FS → Error × FS
  | [], s => (none, s)
  | name :: names, s =>
    let filename := path ++ [name]
    match os.Lstat s filename with
    | .error e =>
      match walkFn filename (.error e) s with
      | (err, s1) =>
        if err ≠ none ∧ err ≠ some Errno.SkipDir then (err, s1)
        else walkNames rec walkFn path names s1
    | .ok fileInfo =>
      match rec filename fileInfo s with
      | (err, s1) =>
        if err ≠ none ∧ (!fileInfo.IsDir ∨ err ≠ some Errno.SkipDir) then (err, s1)
        else walkNames rec walkFn path names s1

/-- The recursive `walk` of `path/filepath`: the names of a directory are read
before the function is called on it. `depth` bounds the nesting; a deeper tree
ends the walk with `tooDeep`. -/
def walk (walkFn : WalkFunc) : Nat → Path → Node → FS → Error × FS
  | 0, _, _, s => (some Errno.tooDeep, s)
  | depth + 1, path, info, s =>
    if !info.IsDir then walkFn path (.ok info) s
    else
      match os.readDirNames s path with
      | .error e => walkFn path (.error e) s
      | .ok names =>
        match walkFn path (.ok info) s with
        | (err1, s1) =>
          if err1 ≠ none then (err1, s1)
          else walkNames (walk walkFn depth) walkFn path names s1

/-- Go `filepath.Walk`. -/
def Walk (depth : Nat) (root : Path) (walkFn : WalkFunc) (s : FS) : Error × FS :=
  let r :=
    match os.Lstat s root with
    | .error e => walkFn root (.error e) s
    | .ok info => walk walkFn depth root info s
  if r.1 = some Errno.SkipDir ∨ r.1 = some Errno.SkipAll then (none, r.2) else r

end fspath

/-! ## The functions of `main.go` -/

/-- Go `copyFile`: the source is opened, the destination created or truncated,
and the bytes copied. -/
def copyFile (src dst : Path) (s : FS) : Error × FS :=
  match os.Lstat s src with
  | .error e => (some e, s)
  | .ok _ =>
    match os.OpenFile s dst with
    | .error e => (some e, s)
    | .ok s1 =>
      match os.stat s1 src with
      | some (Node.file data) => (none, os.set s1 dst (Node.file data))
      | some Node.dir => (some Errno.EISDIR, s1)
      | none => (some Errno.ENOENT, s1)

/-- The function `backupDirectory` passes to `filepath.Walk`. -/
def backupWalkFn (src dst : Path) : fspath.WalkFunc := fun path r s =>
  match r with
  | .error e => (some e, s)
  | .ok info =>
    match fspath.Rel src path with
    | .error e => (some e, s)
    | .ok relPath =>
      let dstPath := fspath.Join dst relPath
      if info.IsDir then os.MkdirAll dstPath s
      else copyFile path dstPath s

/-- Go `backupDirectory`. -/
def backupDirectory (depth : Nat) (src dst : Path) (s : FS) : Error × FS :=
  fspath.Walk depth src (backupWalkFn src dst) s

/-- The function of the inner walk of `removeAllFiles` (lines 175 to 185):
every file below the directory is removed, errors are ignored. -/
def purgeSubWalkFn : fspath.WalkFunc := fun subPath r s =>
  match r with
  | .error _ => (none, s)
  | .ok subInfo =>
    if !subInfo.IsDir then
      match os.Lstat s subPath with
      | .error Errno.ENOENT => (none, s)
      | _ => (none, (os.Remove subPath s).2)
    else (none, s)

/-- The function of the outer walk of `removeAllFiles` (lines 157 to 193). -/
def purgeWalkFn (depth : Nat) (dir : Path) (excludePath : GoString) : fspath.WalkFunc :=
  fun path r s =>
  match r with
  | .error e => if IsNotExist (some e) then (none, s) else (some e, s)
  | .ok info =>
    if path = dir then (none, s)
    else if strings.EqualFold (fspath.pathString path) excludePath then (none, s)
    else if info.IsDir then fspath.Walk depth path purgeSubWalkFn s
    else
      match os.Lstat s path with
      | .error Errno.ENOENT => (none, s)
      | _ => os.Remove path s

/-- What the retry loop of `removeAllFiles` does besides walking. -/
inductive RetryEvent where
  /-- The call `time.Sleep`, with the delay in milliseconds. -/
  | sleep (ms : Nat)
  /-- The walk of the attempt with this index. -/
  | walk (attempt : Nat)
  deriving DecidableEq

/-- The loop of `removeAllFiles` (lines 151 to 204) from `attempt` on, over any
walk; `n` is the number of iterations the loop header still allows. -/
def retryFrom {σ : Type} (walkOnce : σ → Error × σ) (maxRetries retryDelay : Nat) :
    Nat → Nat → σ → List RetryEvent → Error × σ × List RetryEvent
  | 0, _, s, log => (some (Errno.attemptsExhausted maxRetries), s, log)
  | n + 1, attempt, s, log =>
    let log1 := if attempt > 0 then log ++ [RetryEvent.sleep retryDelay] else log
    match walkOnce s with
    | (err, s1) =>
      let log2 := log1 ++ [RetryEvent.walk attempt]
      if err = none then (none, s1, log2)
      else if attempt = maxRetries - 1 then (err, s1, log2)
      else retryFrom walkOnce maxRetries retryDelay n (attempt + 1) s1 log2

/-- Go `removeAllFiles` over any walk: five attempts, half a second apart. -/
def removeAllFilesWith {σ : Type} (walkOnce : σ → Error × σ) (s : σ) :
    Error × σ × List RetryEvent :=
  let maxRetries := 5
  let retryDelay := 500
  retryFrom walkOnce maxRetries retryDelay maxRetries 0 s []

/-- Go `removeAllFiles`. -/
def removeAllFiles (depth : Nat) (dir : Path) (excludePath : GoString) (s : FS) : Error × FS :=
  match removeAllFilesWith (fspath.Walk depth dir (purgeWalkFn depth dir excludePath)) s with
  | (err, s1, _) => (err, s1)

/-- The body of the loop of `extractZip` (lines 224 to 268) for one entry. -/
def extractEntry (rootFolder dest : GoString) (f : ZipFile) (s : FS) : Error × FS :=
  let fpath := entryPath rootFolder dest f
  if skipEntry rootFolder dest fpath then (none, s)
  else if f.IsDir then (none, (os.MkdirAll (fspath.parsePath fpath) s).2)
  else
    match os.MkdirAll (fspath.parsePath (filepath.Dir fpath)) s with
    | (some e, s1) => (some e, s1)
    | (none, s1) =>
      match os.OpenFile s1 (fspath.parsePath fpath) with
      | .error e => (some e, s1)
      | .ok s2 => (none, os.set s2 (fspath.parsePath fpath) (Node.file f.content))

/-- The loop of `extractZip` over the entries: the first error ends it. -/
def extractEntries (rootFolder dest : GoString) : List ZipFile → FS → Error × FS
  | [], s => (none, s)
  | f :: fs, s =>
    match extractEntry rootFolder dest f s with
    | (some e, s1) => (some e, s1)
    | (none, s1) => extractEntries rootFolder dest fs s1

/-- Go `extractZip`, given the outcome of `zip.OpenReader`. -/
def extractZip (opened : Except Errno (List ZipFile)) (dest : GoString) (s : FS) : Error × FS :=
  match opened with
  | .error e => (some e, s)
  | .ok files => extractEntries (detectRootFolder files) dest files s

/-- Go `restoreBackup`. -/
def restoreBackup (backupPath destPath : Path) (s : FS) : Error × FS :=
  match os.RemoveAll destPath s with
  | (some e, s1) => (some e, s1)
  | (none, s1) => os.Rename backupPath destPath s1

/-- The executable name `startProgram` picks for an operating system. -/
def exeName (goos : GoString) : GoString :=
  if goos = "windows".toList then "LumenTV.exe".toList else "LumenTV".toList

/-- Go `startProgram`: the process starts when the executable is a file that
is there. -/
def startProgram (goos : GoString) (path : GoString) (s : FS) : Error × FS :=
  let exePath := filepath.Join [path, exeName goos]
  match os.Lstat s (fspath.parsePath exePath) with
  | .ok (Node.file _) => (none, s)
  | .ok Node.dir => (some Errno.EISDIR, s)
  | .error e => (some e, s)

/-! ## The orchestrator `main` -/

/-- The stages `main` calls, over any state `σ`: each takes the arguments
`main` passes and the state, and returns its error and the state it leaves. -/
structure Stages (σ : Type) where
  /-- The error of `os.Stat`. -/
  Stat : GoString → σ → Error
  /-- Go `os.Executable`. -/
  Executable : σ → Except Errno GoString
  /-- Go `backupDirectory(src, dst)`. -/
  backupDirectory : GoString → GoString → σ → Error × σ
  /-- Go `removeAllFiles(dir, excludePath)`. -/
  removeAllFiles : GoString → GoString → σ → Error × σ
  /-- Go `extractZip(zipPath, dest)`. -/
  extractZip : GoString → GoString → σ → Error × σ
  /-- Go `restoreBackup(backupPath, destPath)`. -/
  restoreBackup : GoString → GoString → σ → Error × σ
  /-- Go `os.RemoveAll(path)`. -/
  RemoveAll : GoString → σ → Error × σ
  /-- Go `startProgram(path)`. -/
  startProgram : GoString → σ → Error × σ

/-- A stage call made by `main`, with its arguments and the error it
returned. -/
inductive Call where
  | backupDirectory (src dst : GoString) (err : Error)
  | removeAllFiles (dir excludePath : GoString) (err : Error)
  | extractZip (zipPath dest : GoString) (err : Error)
  | restoreBackup (backupPath destPath : GoString) (err : Error)
  | RemoveAll (path : GoString) (err : Error)
  | startProgram (path : GoString) (err : Error)
  deriving DecidableEq

/-- Go `main`, after flag parsing: `path` and `file` are the two flags. It
returns the state it leaves and the stage calls it made, in order. -/
def main {σ : Type} (ops : Stages σ) (path file : GoString) (s : σ) : σ × List Call :=
  if path = [] then (s, [])
  else if file = [] then (s, [])
  else
    let targetPath := resolveTarget path
    if IsNotExist (ops.Stat targetPath s) then (s, [])
    else if IsNotExist (ops.Stat file s) then (s, [])
    else
      match ops.Executable s with
      | .error _ => (s, [])
      | .ok executable =>
        let backupPath := backupPathOf targetPath
        match ops.backupDirectory targetPath backupPath s with
        | (some e, s1) => (s1, [Call.backupDirectory targetPath backupPath (some e)])
        | (none, s1) =>
          let log1 := [Call.backupDirectory targetPath backupPath none]
          match ops.removeAllFiles targetPath executable s1 with
          | (some e, s2) =>
            match ops.restoreBackup backupPath targetPath s2 with
            | (rerr, s3) =>
              (s3, log1 ++ [Call.removeAllFiles targetPath executable (some e),
                Call.restoreBackup backupPath targetPath rerr])
          | (none, s2) =>
            let log2 := log1 ++ [Call.removeAllFiles targetPath executable none]
            match ops.extractZip file targetPath s2 with
            | (some e, s3) =>
              match ops.restoreBackup backupPath targetPath s3 with
              | (rerr, s4) =>
                (s4, log2 ++ [Call.extractZip file targetPath (some e),
                  Call.restoreBackup backupPath targetPath rerr])
            | (none, s3) =>
              let log3 := log2 ++ [Call.extractZip file targetPath none]
              match ops.RemoveAll backupPath s3 with
              | (cerr, s4) =>
                let log4 := log3 ++ [Call.RemoveAll backupPath cerr]
                match ops.startProgram targetPath s4 with
                | (lerr, s5) => (s5, log4 ++ [Call.startProgram targetPath lerr])

/-- The stages on the file system. `depth` bounds the walks, `openReader` is
`zip.OpenReader`, `executable` the outcome of `os.Executable` and `goos` the
value of `runtime.GOOS`. -/
def osStages (depth : Nat) (openReader : GoString → FS → Except Errno (List ZipFile))
    (executable : Except Errno GoString) (goos : GoString) : Stages FS where
  Stat := fun p s =>
    match os.Lstat s (fspath.parsePath p) with
    | .ok _ => none
    | .error e => some e
  Executable := fun _ => executable
  backupDirectory := fun src dst s =>
    backupDirectory depth (fspath.parsePath src) (fspath.parsePath dst) s
  removeAllFiles := fun dir excludePath s =>
    removeAllFiles depth (fspath.parsePath dir) excludePath s
  extractZip := fun zipPath dest s => extractZip (openReader zipPath s) dest s
  restoreBackup := fun backupPath destPath s =>
    restoreBackup (fspath.parsePath backupPath) (fspath.parsePath destPath) s
  RemoveAll := fun p s => os.RemoveAll (fspath.parsePath p) s
  startProgram := fun p s => startProgram goos p s

/-- The stages `ops` with a tape: every stage function, when it is called,
appends to the tape in the state the call it received and the error it
returns. What is on the tape is what was really invoked. -/
def recording {σ : Type} (ops : Stages σ) : Stages (σ × List Call) where
  Stat := fun p st => ops.Stat p st.1
  Executable := fun st => ops.Executable st.1
  backupDirectory := fun src dst st =>
    match ops.backupDirectory src dst st.1 with
    | (err, s1) => (err, (s1, st.2 ++ [Call.backupDirectory src dst err]))
  removeAllFiles := fun dir excludePath st =>
    match ops.removeAllFiles dir excludePath st.1 with
    | (err, s1) => (err, (s1, st.2 ++ [Call.removeAllFiles dir excludePath err]))
  extractZip := fun zipPath dest st =>
    match ops.extractZip zipPath dest st.1 with
    | (err, s1) => (err, (s1, st.2 ++ [Call.extractZip zipPath dest err]))
  restoreBackup := fun backupPath destPath st =>
    match ops.restoreBackup backupPath destPath st.1 with
    | (err, s1) => (err, (s1, st.2 ++ [Call.restoreBackup backupPath destPath err]))
  RemoveAll := fun p st =>
    match ops.RemoveAll p st.1 with
    | (err, s1) => (err, (s1, st.2 ++ [Call.RemoveAll p err]))
  startProgram := fun p st =>
    match ops.startProgram p st.1 with
    | (err, s1) => (err, (s1, st.2 ++ [Call.startProgram p err]))

/-! ## Vocabulary of the statements -/

/-- The call is a call of `restoreBackup`. -/
def Call.isRestore : Call → Bool
  | .restoreBackup _ _ _ => true
  | _ => false

/-- The call is a call of `removeAllFiles`. -/
def Call.isPurge : Call → Bool
  | .removeAllFiles _ _ _ => true
  | _ => false

/-- The call is a call of `startProgram`. -/
def Call.isLaunch : Call → Bool
  | .startProgram _ _ => true
  | _ => false

/-- The call is a call of `backupDirectory` that returned an error. -/
def Call.backupFailed : Call → Bool
  | .backupDirectory _ _ (some _) => true
  | _ => false

/-- The call is a call of `removeAllFiles` that returned an error. -/
def Call.purgeFailed : Call → Bool
  | .removeAllFiles _ _ (some _) => true
  | _ => false

/-- The call is a call of `extractZip` that returned an error. -/
def Call.extractFailed : Call → Bool
  | .extractZip _ _ (some _) => true
  | _ => false

/-- The call is the removal of the backup directory and returned an error. -/
def Call.cleanupFailed : Call → Bool
  | .RemoveAll _ (some _) => true
  | _ => false

/-- The call is a call of `startProgram` that returned an error. -/
def Call.launchFailed : Call → Bool
  | .startProgram _ (some _) => true
  | _ => false

/-- The call is not a call of `restoreBackup`, or it is one that returned
`ENOENT`. -/
def Call.restoreNotFound : Call → Bool
  | .restoreBackup _ _ err => err == some Errno.ENOENT
  | _ => true

/-- A walk that follows a script: attempt `i` returns `outs i`. The state
counts the walks made. -/
def scriptedWalk (outs : Nat → Error) : Nat → Error × Nat := fun i => (outs i, i + 1)

/-- A script in which the walk fails twice with a busy file and succeeds from
the third attempt on. -/
def clearsAfterTwoRetries : Nat → Error := fun i => if i < 2 then some Errno.EBUSY else none

/-- The events of `k` attempts: a walk, then a sleep of 500 ms before each
further walk. -/
def retryLog : Nat → List RetryEvent
  | 0 => []
  | 1 => [RetryEvent.walk 0]
  | k + 2 => retryLog (k + 1) ++ [RetryEvent.sleep 500, RetryEvent.walk (k + 1)]

/-- A path from its elements written as string literals. -/
def pathOf (l : List String) : Path := l.map String.toList

/-- A sample installation: `/opt/lumen` with the program, a data directory,
the running updater in `bin`, and the downloaded archive in `/tmp`. -/
def sampleTree : FS :=
  [ (pathOf ["opt"], Node.dir),
    (pathOf ["opt", "lumen"], Node.dir),
    (pathOf ["opt", "lumen", "LumenTV"], Node.file "old program".toList),
    (pathOf ["opt", "lumen", "data"], Node.dir),
    (pathOf ["opt", "lumen", "data", "old.txt"], Node.file "old data".toList),
    (pathOf ["opt", "lumen", "bin"], Node.dir),
    (pathOf ["opt", "lumen", "bin", "updater"], Node.file "updater".toList),
    (pathOf ["tmp"], Node.dir),
    (pathOf ["tmp", "update.zip"], Node.file "zip".toList) ]

/-- The stages of a run on Linux in which the archive cannot be opened and the
updater runs from `/opt/lumen/bin/updater`. -/
def badArchiveStages : Stages FS :=
  osStages 16 (fun _ _ => .error Errno.badArchive) (.ok "/opt/lumen/bin/updater".toList)
    "linux".toList

/-- An archive whose wrapper folder `LumenTV` holds the program `LumenTV` and a
data file. -/
def sampleArchive : List ZipFile :=
  [ { Name := "LumenTV/".toList, modeDir := false, content := [] },
    { Name := "LumenTV/LumenTV".toList, modeDir := false, content := "new program".toList },
    { Name := "LumenTV/data/new.txt".toList, modeDir := false, content := "new data".toList } ]

/-- An empty installation directory `/opt/lumen`. -/
def emptyTarget : FS :=
  [ (pathOf ["opt"], Node.dir), (pathOf ["opt", "lumen"], Node.dir) ]

/-- The first path segment of an entry name: the first piece of the name split
at `/`. -/
def firstSegment (name : GoString) : GoString := (strings.Split name '/').headD []

/-- The name `n` is the one and only first path segment over all entries of the
archive. -/
def onlyFirstSegment (files : List ZipFile) (n : GoString) : Prop :=
  files ≠ [] ∧ ∀ f ∈ files, firstSegment f.Name = n

/-- The first segments the loop of `detectRootFolder` counts: of every entry
but a directory entry whose name lacks the final slash, the first piece of the
name trimmed of slashes at both ends, when it is not empty. -/
def countedSegments (files : List ZipFile) : List GoString :=
  files.filterMap (fun f =>
    if f.IsDir && !strings.HasSuffix f.Name "/".toList then none
    else
      match strings.Split (strings.Trim f.Name "/".toList) '/' with
      | [] => none
      | seg :: _ => if seg ≠ [] then some seg else none)

/-- An entry with no content: `dirBit` is the directory bit of its mode. -/
def entryNamed (name : String) (dirBit : Bool) : ZipFile :=
  { Name := name.toList, modeDir := dirBit, content := [] }

/-- What the loop of `detectRootFolder` maintains, `segs` being the counted
segments of the entries seen: the map holds exactly the segments seen, and
`rootFolders` lists them without repetition. -/
def DetectInv (st : DetectState) (segs : List GoString) : Prop :=
  (∀ k, (mapGet st.folderCount k).isSome = true ↔ k ∈ segs) ∧
  st.rootFolders.Nodup ∧
  (∀ k, k ∈ st.rootFolders ↔ k ∈ segs)

/-- An element `filepath.Clean` keeps: not empty, not `.`, without separator. -/
def ValidElem (e : GoString) : Prop :=
  e ≠ [] ∧ e ≠ ['.'] ∧ filepath.Separator ∉ e

/-- The stack of the element loop of `filepath.Clean` is in order: its elements
are valid, a rooted path keeps no `..`, and below a `..` there are only
`..`. -/
def StackInv (rooted : Bool) (st : List GoString) : Prop :=
  (∀ e ∈ st, ValidElem e) ∧ (rooted = true → ['.', '.'] ∉ st) ∧
    st.Chain' (fun a b => a = ['.', '.'] → b = ['.', '.'])

/-- The path `p` is `dest` or lies beneath it, lexically: both are rooted or
both are not, and the cleaned elements of `p` start with those of `dest`. -/
def Within (dest p : GoString) : Prop :=
  strings.HasPrefix p [filepath.Separator] = strings.HasPrefix dest [filepath.Separator] ∧
    filepath.cleanElems dest <+: filepath.cleanElems p

/-- An archive whose only entry climbs out of the destination. -/
def climbingArchive : List ZipFile :=
  [ { Name := "../evil".toList, modeDir := false, content := "x".toList } ]

/-- A well-formed file system: whatever exists below the root sits in a
directory, under a name that is neither empty nor `.` nor `..`. -/
def WellFormed (s : FS) : Prop :=
  ∀ p n, os.stat s (p ++ [n]) ≠ none →
    os.stat s p = some Node.dir ∧ n ≠ [] ∧ n ≠ ['.'] ∧ n ≠ ['.', '.']

/-- What the walk of `backupDirectory` does at a node `D ++ r` of the source
when nothing is at `B ++ r` yet and its parent is there: it succeeds, leaves at
`B ++ r` what the original tree `s0` has at `D ++ r`, and changes nothing
else. -/
def BackupNodeSpec (s0 : FS) (D B : Path) (d : Nat) : Prop :=
  ∀ (r : Path) (s : FS) (info : Node),
    os.stat s0 (D ++ r) = some info →
    (∀ q, os.stat s (D ++ q) = os.stat s0 (D ++ q)) →
    os.stat s (B ++ r).dropLast = some Node.dir →
    (∀ q, os.stat s (B ++ r ++ q) = none) →
    (∀ q, os.stat s0 (D ++ r ++ q) ≠ none → q.length < d) →
    ∃ s1, fspath.walk (backupWalkFn D B) d (D ++ r) info s = (none, s1) ∧
      (∀ q, os.stat s1 (B ++ r ++ q) = os.stat s0 (D ++ r ++ q)) ∧
      (∀ x, ¬ (B ++ r <+: x) → os.stat s1 x = os.stat s x)

/-- The state of the loop over the names of the directory `D ++ r` once the
names in `done` are copied: `B ++ r` is a directory, holds the copies of the
entries in `done` and nothing else, and the rest is as in `base`. -/
def BackupLoopInv (s0 base : FS) (D B r : Path) (done : List GoString) (t : FS) : Prop :=
  os.stat t (B ++ r) = some Node.dir ∧
  (∀ n q, n ∈ done → os.stat t (B ++ r ++ n :: q) = os.stat s0 (D ++ r ++ n :: q)) ∧
  (∀ n q, n ∉ done → os.stat t (B ++ r ++ n :: q) = none) ∧
  (∀ x, ¬ (B ++ r <+: x) → os.stat t x = os.stat base x)

/-- The check of `WellFormed` on the entries of the table. -/
def checkWellFormed (s : FS) : Bool :=
  s.all (fun e => e.1.isEmpty ||
    (decide (os.stat s e.1.dropLast = some Node.dir) &&
      decide (e.1.getLast?.getD [] ≠ [] ∧ e.1.getLast?.getD [] ≠ ['.'] ∧
        e.1.getLast?.getD [] ≠ ['.', '.'])))

/-- Every path of the table has fewer than `k` elements, and `k` is positive. -/
def checkDepth (s : FS) (k : Nat) : Bool :=
  decide (0 < k) && s.all (fun e => decide (e.1.length < k))

/-- The part of the entry name that `extractZip` joins to the destination
(lines 225 to 231): the name without the root folder and its slash when a root
folder is stripped and the name starts with them, the whole name otherwise. -/
def joinedName (rootFolder : GoString) (f : ZipFile) : GoString :=
  if rootFolder ≠ [] ∧ strings.HasPrefix f.Name (rootFolder ++ "/".toList) = true then
    f.Name.drop (rootFolder.length + 1)
  else f.Name

/-- Whether a list of path elements, read from a directory `k` levels below a
starting point, never steps above the starting point: each `..` finds an
ordinary element before it that it cancels. -/
def staysBelowFrom : List GoString → Nat → Bool
  | [], _ => true
  | e :: es, k =>
    if e = [] ∨ e = ['.'] then staysBelowFrom es k
    else if e = ['.', '.'] then decide (0 < k) && staysBelowFrom es (k - 1)
    else staysBelowFrom es (k + 1)

/-- Whether a name never steps above the directory it starts from. -/
def nameStaysBelow (name : GoString) : Bool :=
  staysBelowFrom (strings.Split name '/') 0
/-- An archive with a name that steps into `data` and back out of it. -/
def detourArchive : List ZipFile :=
  [ { Name := "LumenTV/".toList, modeDir := false, content := [] },
    { Name := "LumenTV/data/../notes.txt".toList, modeDir := false, content := "notes".toList },
    { Name := "LumenTV/data/new.txt".toList, modeDir := false, content := "new data".toList } ]

/-! # Theorems -/

/-! ## The orchestrator -/

/-- The calls `main` makes have one of five shapes. -/
theorem main_log_shape {σ : Type} (ops : Stages σ) (path file : GoString) (s : σ) :
    (main ops path file s).2 = [] ∨
    (∃ t b e, (main ops path file s).2 = [Call.backupDirectory t b (some e)]) ∨
    (∃ t b x e r, (main ops path file s).2 =
      [Call.backupDirectory t b none, Call.removeAllFiles t x (some e),
        Call.restoreBackup b t r]) ∨
    (∃ t b x f e r, (main ops path file s).2 =
      [Call.backupDirectory t b none, Call.removeAllFiles t x none,
        Call.extractZip f t (some e), Call.restoreBackup b t r]) ∨
    (∃ t b x f c l, (main ops path file s).2 =
      [Call.backupDirectory t b none, Call.removeAllFiles t x none,
        Call.extractZip f t none, Call.RemoveAll b c, Call.startProgram t l]) := by
  by_cases hp : path = []
  · simp [main, hp]
  by_cases hf : file = []
  · simp [main, hp, hf]
  by_cases ht : IsNotExist (ops.Stat (resolveTarget path) s) = true
  · simp [main, hp, hf, ht]
  by_cases hz : IsNotExist (ops.Stat file s) = true
  · simp [main, hp, hf, ht, hz]
  cases hx : ops.Executable s with
  | error e => simp [main, hp, hf, ht, hz, hx]
  | ok executable =>
    rcases hb : ops.backupDirectory (resolveTarget path) (backupPathOf (resolveTarget path)) s
      with ⟨_ | e, s1⟩
    · rcases hr : ops.removeAllFiles (resolveTarget path) executable s1 with ⟨_ | e, s2⟩
      · rcases he : ops.extractZip file (resolveTarget path) s2 with ⟨_ | e, s3⟩
        · simp only [main, hp, hf, ht, hz, hx, hb, hr, he, if_false]
          refine Or.inr (Or.inr (Or.inr (Or.inr ⟨_, _, _, _, _, _, rfl⟩)))
        · simp only [main, hp, hf, ht, hz, hx, hb, hr, he, if_false]
          refine Or.inr (Or.inr (Or.inr (Or.inl ⟨_, _, _, _, _, _, rfl⟩)))
      · simp only [main, hp, hf, ht, hz, hx, hb, hr, if_false]
        refine Or.inr (Or.inr (Or.inl ⟨_, _, _, _, _, rfl⟩))
    · simp only [main, hp, hf, ht, hz, hx, hb, if_false]
      refine Or.inr (Or.inl ⟨_, _, _, rfl⟩)

/-- The summary of the calls of `main`: one restore exactly when the purge or
the extraction failed, none after a failed backup, cleanup or start. -/
theorem main_log_summary {σ : Type} (ops : Stages σ) (path file : GoString) (s : σ) :
    ((main ops path file s).2.countP Call.isRestore =
        if (main ops path file s).2.any Call.purgeFailed ||
            (main ops path file s).2.any Call.extractFailed then 1 else 0) ∧
    ((main ops path file s).2.any Call.backupFailed = true →
        (main ops path file s).2.countP Call.isRestore = 0 ∧
        (main ops path file s).2.any Call.isPurge = false ∧
        (main ops path file s).2.length = 1) ∧
    ((main ops path file s).2.any Call.cleanupFailed = true →
        (main ops path file s).2.countP Call.isRestore = 0 ∧
        (main ops path file s).2.any Call.isLaunch = true) ∧
    ((main ops path file s).2.any Call.launchFailed = true →
        (main ops path file s).2.countP Call.isRestore = 0) := by
  rcases main_log_shape ops path file s with h | ⟨t, b, e, h⟩ | ⟨t, b, x, e, r, h⟩ |
    ⟨t, b, x, f, e, r, h⟩ | ⟨t, b, x, f, c, l, h⟩
  all_goals rw [h]
  all_goals simp [Call.isRestore, Call.purgeFailed, Call.extractFailed, Call.backupFailed,
    Call.isPurge, Call.cleanupFailed, Call.isLaunch, Call.launchFailed, List.countP_cons,
    List.countP_nil]

/-- The list of calls `main` returns is the tape the stages themselves write
when they are invoked, and the tape does not change the state `main` leaves. -/
theorem main_recording {σ : Type} (ops : Stages σ) (path file : GoString) (s : σ) :
    main (recording ops) path file (s, []) =
      (((main ops path file s).1, (main ops path file s).2), (main ops path file s).2) := by
  by_cases hp : path = []
  · simp [main, hp]
  by_cases hf : file = []
  · simp [main, hp, hf]
  by_cases ht : IsNotExist (ops.Stat (resolveTarget path) s) = true
  · simp [main, recording, hp, hf, ht]
  by_cases hz : IsNotExist (ops.Stat file s) = true
  · simp [main, recording, hp, hf, ht, hz]
  cases hx : ops.Executable s with
  | error e => simp [main, recording, hp, hf, ht, hz, hx]
  | ok executable =>
    rcases hb : ops.backupDirectory (resolveTarget path) (backupPathOf (resolveTarget path)) s
      with ⟨_ | e, s1⟩
    · rcases hr : ops.removeAllFiles (resolveTarget path) executable s1 with ⟨_ | e, s2⟩
      · rcases he : ops.extractZip file (resolveTarget path) s2 with ⟨_ | e, s3⟩
        · simp [main, recording, hp, hf, ht, hz, hx, hb, hr, he]
        · simp [main, recording, hp, hf, ht, hz, hx, hb, hr, he]
      · simp [main, recording, hp, hf, ht, hz, hx, hb, hr]
    · simp [main, recording, hp, hf, ht, hz, hx, hb]

/-- Claim C6. For all stage functions `ops`, all flags and every state, `main`
does the following, `t` being the resolved target and `b` the backup path.
When the resolution fails it calls nothing and leaves the state as it is. When
`backupDirectory` returns an error it stops there: that call is the only one,
no purge and no restore. When `removeAllFiles` returns an error, or
`removeAllFiles` succeeds and `extractZip` returns an error, it calls
`restoreBackup b t` once, on the state that stage left, and stops with the
state `restoreBackup` leaves. When all three succeed it calls `os.RemoveAll b`
and then `startProgram t` whatever the removal returned, and there is no
restore, whatever the two return. The calls listed are the calls the stages
really received: they equal the tape the stages write themselves. In
particular the number of restore calls is one if the purge or the extraction
failed and zero otherwise. -/
theorem main_rollback_policy {σ : Type} (ops : Stages σ) (path file : GoString) (s : σ) :
    ((path = [] ∨ file = [] ∨ IsNotExist (ops.Stat (resolveTarget path) s) = true ∨
        IsNotExist (ops.Stat file s) = true ∨ (∃ e, ops.Executable s = .error e)) →
      main ops path file s = (s, [])) ∧
    (∀ exe, path ≠ [] → file ≠ [] →
      IsNotExist (ops.Stat (resolveTarget path) s) = false →
      IsNotExist (ops.Stat file s) = false →
      ops.Executable s = .ok exe →
      (∀ e s1,
        ops.backupDirectory (resolveTarget path) (backupPathOf (resolveTarget path)) s
          = (some e, s1) →
        main ops path file s =
          (s1, [Call.backupDirectory (resolveTarget path) (backupPathOf (resolveTarget path))
            (some e)])) ∧
      (∀ s1,
        ops.backupDirectory (resolveTarget path) (backupPathOf (resolveTarget path)) s
          = (none, s1) →
        (∀ e s2, ops.removeAllFiles (resolveTarget path) exe s1 = (some e, s2) →
          main ops path file s =
            ((ops.restoreBackup (backupPathOf (resolveTarget path)) (resolveTarget path) s2).2,
              [Call.backupDirectory (resolveTarget path) (backupPathOf (resolveTarget path))
                none,
               Call.removeAllFiles (resolveTarget path) exe (some e),
               Call.restoreBackup (backupPathOf (resolveTarget path)) (resolveTarget path)
                (ops.restoreBackup (backupPathOf (resolveTarget path)) (resolveTarget path)
                  s2).1])) ∧
        (∀ s2, ops.removeAllFiles (resolveTarget path) exe s1 = (none, s2) →
          (∀ e s3, ops.extractZip file (resolveTarget path) s2 = (some e, s3) →
            main ops path file s =
              ((ops.restoreBackup (backupPathOf (resolveTarget path)) (resolveTarget path)
                  s3).2,
                [Call.backupDirectory (resolveTarget path) (backupPathOf (resolveTarget path))
                  none,
                 Call.removeAllFiles (resolveTarget path) exe none,
                 Call.extractZip file (resolveTarget path) (some e),
                 Call.restoreBackup (backupPathOf (resolveTarget path)) (resolveTarget path)
                  (ops.restoreBackup (backupPathOf (resolveTarget path)) (resolveTarget path)
                    s3).1])) ∧
          (∀ s3, ops.extractZip file (resolveTarget path) s2 = (none, s3) →
            main ops path file s =
              ((ops.startProgram (resolveTarget path)
                  (ops.RemoveAll (backupPathOf (resolveTarget path)) s3).2).2,
                [Call.backupDirectory (resolveTarget path) (backupPathOf (resolveTarget path))
                  none,
                 Call.removeAllFiles (resolveTarget path) exe none,
                 Call.extractZip file (resolveTarget path) none,
                 Call.RemoveAll (backupPathOf (resolveTarget path))
                  (ops.RemoveAll (backupPathOf (resolveTarget path)) s3).1,
                 Call.startProgram (resolveTarget path)
                  (ops.startProgram (resolveTarget path)
                    (ops.RemoveAll (backupPathOf (resolveTarget path)) s3).2).1]))))) ∧
    main (recording ops) path file (s, []) =
      (((main ops path file s).1, (main ops path file s).2), (main ops path file s).2) ∧
    ((main ops path file s).2.countP Call.isRestore =
        if (main ops path file s).2.any Call.purgeFailed ||
            (main ops path file s).2.any Call.extractFailed then 1 else 0) ∧
    ((main ops path file s).2.any Call.backupFailed = true →
        (main ops path file s).2.countP Call.isRestore = 0 ∧
        (main ops path file s).2.any Call.isPurge = false ∧
        (main ops path file s).2.length = 1) ∧
    ((main ops path file s).2.any Call.cleanupFailed = true →
        (main ops path file s).2.countP Call.isRestore = 0 ∧
        (main ops path file s).2.any Call.isLaunch = true) ∧
    ((main ops path file s).2.any Call.launchFailed = true →
        (main ops path file s).2.countP Call.isRestore = 0) := by
  refine ⟨?_, ?_, main_recording ops path file s, main_log_summary ops path file s⟩
  · rintro (hp | hf | ht | hz | ⟨e, hx⟩)
    · simp [main, hp]
    · by_cases hp : path = []
      · simp [main, hp]
      · simp [main, hp, hf]
    · by_cases hp : path = []
      · simp [main, hp]
      · by_cases hf : file = []
        · simp [main, hp, hf]
        · simp [main, hp, hf, ht]
    · by_cases hp : path = []
      · simp [main, hp]
      · by_cases hf : file = []
        · simp [main, hp, hf]
        · by_cases ht : IsNotExist (ops.Stat (resolveTarget path) s) = true
          · simp [main, hp, hf, ht]
          · simp [main, hp, hf, ht, hz]
    · by_cases hp : path = []
      · simp [main, hp]
      · by_cases hf : file = []
        · simp [main, hp, hf]
        · by_cases ht : IsNotExist (ops.Stat (resolveTarget path) s) = true
          · simp [main, hp, hf, ht]
          · by_cases hz : IsNotExist (ops.Stat file s) = true
            · simp [main, hp, hf, ht, hz]
            · simp [main, hp, hf, ht, hz, hx]
  · intro exe hp hf ht hz hx
    refine ⟨?_, ?_⟩
    · intro e s1 hb
      simp [main, hp, hf, ht, hz, hx, hb]
    · intro s1 hb
      refine ⟨?_, ?_⟩
      · intro e s2 hr
        simp [main, hp, hf, ht, hz, hx, hb, hr]
      · intro s2 hr
        refine ⟨?_, ?_⟩
        · intro e s3 he
          simp [main, hp, hf, ht, hz, hx, hb, hr, he]
        · intro s3 he
          simp [main, hp, hf, ht, hz, hx, hb, hr, he]

/-- Claim C6 on the sample installation with an archive that cannot be opened:
the resolution, the backup and the purge succeed, the extraction fails, and
`main` ends with the state `restoreBackup` leaves after its one call. -/
theorem main_rollback_policy_witness :
    (badArchiveStages.extractZip "/tmp/update.zip".toList "/opt/lumen/".toList
      (badArchiveStages.removeAllFiles "/opt/lumen/".toList "/opt/lumen/bin/updater".toList
        (badArchiveStages.backupDirectory "/opt/lumen/".toList "/opt/lumen/.backup".toList
          sampleTree).2).2).1 = some Errno.badArchive ∧
    main badArchiveStages "/opt/lumen".toList "/tmp/update.zip".toList sampleTree =
      ((badArchiveStages.restoreBackup "/opt/lumen/.backup".toList "/opt/lumen/".toList
          (badArchiveStages.removeAllFiles "/opt/lumen/".toList
            "/opt/lumen/bin/updater".toList
            (badArchiveStages.backupDirectory "/opt/lumen/".toList
              "/opt/lumen/.backup".toList sampleTree).2).2).2,
        [ Call.backupDirectory "/opt/lumen/".toList "/opt/lumen/.backup".toList none,
          Call.removeAllFiles "/opt/lumen/".toList "/opt/lumen/bin/updater".toList none,
          Call.extractZip "/tmp/update.zip".toList "/opt/lumen/".toList
            (some Errno.badArchive),
          Call.restoreBackup "/opt/lumen/.backup".toList "/opt/lumen/".toList
            (some Errno.ENOENT) ]) ∧
    (main (recording badArchiveStages) "/opt/lumen".toList "/tmp/update.zip".toList
      (sampleTree, [])).1.2.countP Call.isRestore = 1 := by
  have h := main_rollback_policy badArchiveStages "/opt/lumen".toList
    "/tmp/update.zip".toList sampleTree
  have hbranch := ((((h.2.1 "/opt/lumen/bin/updater".toList (by decide) (by decide)
    (by decide) (by decide) rfl).2
      (badArchiveStages.backupDirectory "/opt/lumen/".toList "/opt/lumen/.backup".toList
        sampleTree).2 (by decide)).2
      (badArchiveStages.removeAllFiles "/opt/lumen/".toList "/opt/lumen/bin/updater".toList
        (badArchiveStages.backupDirectory "/opt/lumen/".toList "/opt/lumen/.backup".toList
          sampleTree).2).2 (by decide)).1 Errno.badArchive
      (badArchiveStages.removeAllFiles "/opt/lumen/".toList "/opt/lumen/bin/updater".toList
        (badArchiveStages.backupDirectory "/opt/lumen/".toList "/opt/lumen/.backup".toList
          sampleTree).2).2 (by decide))
  refine ⟨by decide, ?_, ?_⟩
  · rw [hbranch]
    decide
  · rw [h.2.2.1, h.2.2.2.1]
    decide

/-! ## The retry loop of the purge -/

/-- Claim C7. For every script of walk outcomes, `removeAllFiles` makes
between one and five walks, sleeps 500 ms before each walk after the first,
returns success at the first walk without error, and returns the error of the
fifth walk when all five fail. -/
theorem removeAllFiles_bounded_retry (outs : Nat → Error) :
    1 ≤ (removeAllFilesWith (scriptedWalk outs) 0).2.1 ∧
    (removeAllFilesWith (scriptedWalk outs) 0).2.1 ≤ 5 ∧
    (removeAllFilesWith (scriptedWalk outs) 0).2.2 =
      retryLog (removeAllFilesWith (scriptedWalk outs) 0).2.1 ∧
    (∀ i, i < 5 → outs i = none → (∀ j, j < i → outs j ≠ none) →
      (removeAllFilesWith (scriptedWalk outs) 0).1 = none ∧
      (removeAllFilesWith (scriptedWalk outs) 0).2.1 = i + 1) ∧
    ((∀ j, j < 5 → outs j ≠ none) →
      (removeAllFilesWith (scriptedWalk outs) 0).1 = outs 4 ∧
      (removeAllFilesWith (scriptedWalk outs) 0).2.1 = 5) := by
  simp only [removeAllFilesWith, retryFrom, scriptedWalk]
  cases h0 : outs 0 with
  | none =>
    refine ⟨by simp, by simp, by simp [retryLog], ?_, ?_⟩
    · intro i hi hnone hprev
      rcases Nat.eq_zero_or_pos i with rfl | hpos
      · simp
      · exact absurd h0 (hprev 0 hpos)
    · intro hall
      exact absurd h0 (hall 0 (by omega))
  | some e0 =>
    cases h1 : outs 1 with
    | none =>
      refine ⟨by simp, by simp, by simp [retryLog], ?_, ?_⟩
      · intro i hi hnone hprev
        have : i = 1 := by
          rcases Nat.lt_trichotomy i 1 with h | h | h
          · have : i = 0 := by omega
            subst this; simp [h0] at hnone
          · exact h
          · exact absurd h1 (hprev 1 h)
        subst this; simp
      · intro hall
        exact absurd h1 (hall 1 (by omega))
    | some e1 =>
      cases h2 : outs 2 with
      | none =>
        refine ⟨by simp, by simp, by simp [retryLog], ?_, ?_⟩
        · intro i hi hnone hprev
          have : i = 2 := by
            rcases Nat.lt_trichotomy i 2 with h | h | h
            · interval_cases i <;> simp_all
            · exact h
            · exact absurd h2 (hprev 2 h)
          subst this; simp
        · intro hall
          exact absurd h2 (hall 2 (by omega))
      | some e2 =>
        cases h3 : outs 3 with
        | none =>
          refine ⟨by simp, by simp, by simp [retryLog], ?_, ?_⟩
          · intro i hi hnone hprev
            have : i = 3 := by
              rcases Nat.lt_trichotomy i 3 with h | h | h
              · interval_cases i <;> simp_all
              · exact h
              · exact absurd h3 (hprev 3 h)
            subst this; simp
          · intro hall
            exact absurd h3 (hall 3 (by omega))
        | some e3 =>
          cases h4 : outs 4 with
          | none =>
            refine ⟨by simp, by simp, by simp [retryLog], ?_, ?_⟩
            · intro i hi hnone hprev
              have : i = 4 := by
                interval_cases i <;> simp_all
              subst this; simp
            · intro hall
              exact absurd h4 (hall 4 (by omega))
          | some e4 =>
            refine ⟨by simp, by simp, by simp [retryLog], ?_, ?_⟩
            · intro i hi hnone hprev
              interval_cases i <;> simp_all
            · intro _
              simp


/-- Claim C7 on a walk that fails twice and then succeeds: `removeAllFiles`
returns success after three walks. -/
theorem removeAllFiles_bounded_retry_witness :
    (removeAllFilesWith (scriptedWalk clearsAfterTwoRetries) 0).1 = none ∧
    (removeAllFilesWith (scriptedWalk clearsAfterTwoRetries) 0).2.1 = 2 + 1 ∧
    (removeAllFilesWith (scriptedWalk clearsAfterTwoRetries) 0).2.2 =
      [RetryEvent.walk 0, RetryEvent.sleep 500, RetryEvent.walk 1, RetryEvent.sleep 500,
        RetryEvent.walk 2] := by
  have h := removeAllFiles_bounded_retry clearsAfterTwoRetries
  have h2 := h.2.2.2.1 2 (by decide) (by decide)
    (by intro j hj; interval_cases j <;> decide)
  refine ⟨h2.1, h2.2, ?_⟩
  rw [h.2.2.1, h2.2]
  rfl

/-! ## Path resolution -/

/-- Claim C5, at the failing input. For the path `/opt/app/`, whose last
element is `app`, `main` takes the branch for an `app` directory, yet the
resolved target is `/opt/app/` itself and not the parent `/opt/`; without the
trailing separator the parent is found. -/
theorem resolveTarget_app_trailing_separator :
    strings.ToLower (filepath.Base (strings.TrimRight "/opt/app/".toList [filepath.Separator]))
      = "app".toList ∧
    filepath.Dir "/opt/app/".toList = "/opt/app".toList ∧
    resolveTarget "/opt/app/".toList = "/opt/app/".toList ∧
    resolveTarget "/opt/app".toList = "/opt/".toList := by
  decide

/-! ## The purge and the excluded path -/

/-- Claim C3, at the failing input. The updater runs from
`/opt/lumen/bin/updater`, a file inside the subdirectory `bin` of the purged
directory; `removeAllFiles` succeeds at its first attempt and the file is gone.
An excluded file directly inside the purged directory is kept. -/
theorem removeAllFiles_removes_nested_excluded :
    os.stat sampleTree (pathOf ["opt", "lumen", "bin", "updater"])
      = some (Node.file "updater".toList) ∧
    (removeAllFiles 16 (pathOf ["opt", "lumen"]) "/opt/lumen/bin/updater".toList sampleTree).1
      = none ∧
    os.stat
      (removeAllFiles 16 (pathOf ["opt", "lumen"]) "/opt/lumen/bin/updater".toList sampleTree).2
      (pathOf ["opt", "lumen", "bin", "updater"]) = none ∧
    os.stat
      (removeAllFiles 16 (pathOf ["opt", "lumen"]) "/opt/lumen/LumenTV".toList sampleTree).2
      (pathOf ["opt", "lumen", "LumenTV"]) = some (Node.file "old program".toList) := by
  decide

/-! ## Splitting at the separator -/

theorem Split_ne_nil (s : GoString) (sep : Char) : strings.Split s sep ≠ [] := by
  induction s with
  | nil => simp [strings.Split]
  | cons c cs ih =>
    unfold strings.Split
    split
    · simp
    · split <;> simp

theorem Split_append_sep (x y : GoString) (sep : Char) :
    strings.Split (x ++ sep :: y) sep = strings.Split x sep ++ strings.Split y sep := by
  induction x with
  | nil => simp [strings.Split]
  | cons c cs ih =>
    by_cases hc : c = sep
    · simp [strings.Split, hc, ih]
    · have hne := Split_ne_nil cs sep
      cases hs : strings.Split cs sep with
      | nil => exact absurd hs hne
      | cons a as =>
        simp [strings.Split, hc, ih, hs]

theorem ensure_separator (tp : GoString) :
    ∃ x, (if !strings.HasSuffix tp [filepath.Separator] then tp ++ [filepath.Separator]
      else tp) = x ++ [filepath.Separator] := by
  split
  · exact ⟨_, rfl⟩
  · rename_i h
    have h1 : [filepath.Separator].isSuffixOf tp = true := by
      simpa [strings.HasSuffix] using h
    obtain ⟨x, hx⟩ := List.isSuffixOf_iff_suffix.mp h1
    exact ⟨x, hx.symm⟩

theorem resolveTarget_ends_with_separator (path : GoString) :
    ∃ x, resolveTarget path = x ++ [filepath.Separator] := by
  unfold resolveTarget
  exact ensure_separator _

theorem parsePath_backup (x : GoString) :
    fspath.parsePath (backupPathOf (x ++ [filepath.Separator])) =
      fspath.parsePath (x ++ [filepath.Separator]) ++ [".backup".toList] := by
  have h1 : backupPathOf (x ++ [filepath.Separator]) =
      x ++ filepath.Separator :: ".backup".toList := by
    simp [backupPathOf]
  have h2 : strings.Split ".backup".toList filepath.Separator = [".backup".toList] := by decide
  have h3 : strings.Split [] filepath.Separator = [[]] := by decide
  have h4 : ∀ st, filepath.cleanStep true st ".backup".toList = ".backup".toList :: st := by
    intro st
    have e1 : ¬ (".backup".toList = [] ∨ ".backup".toList = ['.']) := by decide
    have e2 : ¬ (".backup".toList = ['.', '.']) := by decide
    simp only [filepath.cleanStep, e1, e2, if_false]
  have h5 : ∀ st, filepath.cleanStep true st [] = st := by
    intro st
    simp [filepath.cleanStep]
  rw [h1]
  unfold fspath.parsePath
  rw [Split_append_sep, Split_append_sep, h2, h3, List.foldl_append, List.foldl_append]
  simp only [List.foldl_cons, List.foldl_nil, h4, h5, List.reverse_cons]

/-! ## The backup path -/

/-- Claim C2, on the code. For every `-path` argument the resolved target ends
with the separator, so the backup path `main` computes names the entry
`.backup` directly inside the target directory. On the sample installation the
backup made there holds the program, and the purge of the target that follows
removes it from the backup. -/
theorem backupPath_is_inside_target (path : GoString) :
    strings.HasSuffix (resolveTarget path) [filepath.Separator] = true ∧
    fspath.parsePath (backupPathOf (resolveTarget path)) =
      fspath.parsePath (resolveTarget path) ++ [".backup".toList] ∧
    backupPathOf (resolveTarget "/opt/lumen".toList) = "/opt/lumen/.backup".toList ∧
    os.stat (backupDirectory 16 (pathOf ["opt", "lumen"]) (pathOf ["opt", "lumen", ".backup"])
      sampleTree).2 (pathOf ["opt", "lumen", ".backup", "LumenTV"])
      = some (Node.file "old program".toList) ∧
    os.stat (removeAllFiles 16 (pathOf ["opt", "lumen"]) "/opt/lumen/bin/updater".toList
      (backupDirectory 16 (pathOf ["opt", "lumen"]) (pathOf ["opt", "lumen", ".backup"])
        sampleTree).2).2 (pathOf ["opt", "lumen", ".backup", "LumenTV"]) = none := by
  obtain ⟨x, hx⟩ := resolveTarget_ends_with_separator path
  refine ⟨?_, ?_, by decide, by decide, by decide⟩
  · rw [hx]
    simp [strings.HasSuffix]
  · rw [hx]
    exact parsePath_backup x

/-! ## Extraction -/

/-- Claim C4, at the failing input. In the archive with wrapper folder
`LumenTV`, the file entry `LumenTV/LumenTV` has the path `/opt/lumen/LumenTV`,
whose base name equals the root folder: the entry is skipped, and after a
successful extraction no file is there, while the other file entry is
written. -/
theorem extractZip_skips_file_named_as_root :
    detectRootFolder sampleArchive = "LumenTV".toList ∧
    entryPath "LumenTV".toList "/opt/lumen/".toList
      { Name := "LumenTV/LumenTV".toList, modeDir := false, content := "new program".toList }
      = "/opt/lumen/LumenTV".toList ∧
    skipEntry "LumenTV".toList "/opt/lumen/".toList "/opt/lumen/LumenTV".toList = true ∧
    (extractZip (.ok sampleArchive) "/opt/lumen/".toList emptyTarget).1 = none ∧
    os.stat (extractZip (.ok sampleArchive) "/opt/lumen/".toList emptyTarget).2
      (pathOf ["opt", "lumen", "LumenTV"]) = none ∧
    os.stat (extractZip (.ok sampleArchive) "/opt/lumen/".toList emptyTarget).2
      (pathOf ["opt", "lumen", "data", "new.txt"]) = some (Node.file "new data".toList) := by
  decide


/-! ## Root-folder detection -/

theorem mapGet_mapIncr (m : List (GoString × Nat)) (k k1 : GoString) :
    (mapGet (mapIncr m k) k1).isSome = true ↔ k1 = k ∨ (mapGet m k1).isSome = true := by
  induction m with
  | nil =>
    by_cases h : k = k1
    · simp [mapIncr, mapGet, h]
    · have h1 : ¬ k1 = k := fun e => h e.symm
      simp [mapIncr, mapGet, h, h1]
  | cons e rest ih =>
    obtain ⟨k2, v⟩ := e
    by_cases h2 : k2 = k
    · subst h2
      by_cases h : k2 = k1
      · subst h
        simp [mapIncr, mapGet]
      · have h1 : ¬ k1 = k2 := fun e => h e.symm
        simp [mapIncr, mapGet, h, h1]
    · by_cases h : k2 = k1
      · subst h
        simp [mapIncr, mapGet, h2]
      · simp [mapIncr, mapGet, h2, h, ih]

theorem countedSegments_cons (f : ZipFile) (fs : List ZipFile) :
    countedSegments (f :: fs) = countedSegments [f] ++ countedSegments fs := by
  unfold countedSegments
  rw [List.filterMap_cons, List.filterMap_cons, List.filterMap_nil]
  split <;> simp

theorem countedSegments_ne_nil (files : List ZipFile) (m : GoString)
    (h : m ∈ countedSegments files) : m ≠ [] := by
  unfold countedSegments at h
  rw [List.mem_filterMap] at h
  obtain ⟨f, _, hf⟩ := h
  split at hf
  · simp at hf
  · split at hf
    · simp at hf
    · split at hf
      · rename_i hseg
        simp only [Option.some.injEq] at hf
        rw [← hf]
        exact hseg
      · simp at hf

theorem detectStep_inv (st : DetectState) (segs : List GoString) (f : ZipFile)
    (h : DetectInv st segs) : DetectInv (detectStep st f) (segs ++ countedSegments [f]) := by
  obtain ⟨hmap, hnodup, hroot⟩ := h
  unfold detectStep countedSegments
  rw [List.filterMap_cons, List.filterMap_nil]
  split
  · simpa [DetectInv] using ⟨hmap, hnodup, hroot⟩
  · split
    · simpa [DetectInv] using ⟨hmap, hnodup, hroot⟩
    · rename_i seg rest hsplit
      split
      · rename_i hseg
        refine ⟨?_, ?_, ?_⟩
        · intro k
          simp only [mapGet_mapIncr, hmap, List.mem_append, List.mem_singleton]
          tauto
        · simp only []
          split
          · rename_i hnone
            have hnot : seg ∉ st.rootFolders := by
              intro hin
              have := (hmap seg).mpr ((hroot seg).mp hin)
              simp [Option.isNone_iff_eq_none] at hnone
              simp [hnone] at this
            rw [List.nodup_append]
            refine ⟨hnodup, List.nodup_singleton _, ?_⟩
            intro a ha hb
            simp only [List.mem_singleton] at hb
            exact hnot (hb ▸ ha)
          · exact hnodup
        · intro k
          simp only []
          split
          · simp only [List.mem_append, List.mem_singleton, hroot]
          · rename_i hsome
            have hin : seg ∈ segs := by
              apply (hmap seg).mp
              cases hg : mapGet st.folderCount seg with
              | none => simp [hg] at hsome
              | some v => simp
            simp only [List.mem_append, List.mem_singleton, hroot]
            constructor
            · intro hk; exact Or.inl hk
            · rintro (hk | hk)
              · exact hk
              · exact hk ▸ hin
      · simpa [DetectInv] using ⟨hmap, hnodup, hroot⟩

theorem detect_foldl_inv (files : List ZipFile) (st : DetectState) (segs : List GoString)
    (h : DetectInv st segs) :
    DetectInv (files.foldl detectStep st) (segs ++ countedSegments files) := by
  induction files generalizing st segs with
  | nil => simpa [countedSegments] using h
  | cons f fs ih =>
    rw [List.foldl_cons, countedSegments_cons, ← List.append_assoc]
    exact ih _ _ (detectStep_inv st segs f h)

theorem nodup_eq_singleton {l : List GoString} (hl : l.Nodup) (n : GoString) :
    l = [n] ↔ n ∈ l ∧ ∀ m ∈ l, m = n := by
  constructor
  · rintro rfl
    simp
  · rintro ⟨hn, hall⟩
    match l, hl, hn, hall with
    | [], _, hn, _ => simp at hn
    | [a], _, _, hall => simp [hall a (by simp)]
    | a :: b :: t, hl, _, hall =>
      have ha := hall a (by simp)
      have hb := hall b (by simp)
      rw [List.nodup_cons] at hl
      exact absurd (by simp [ha, hb]) hl.1

theorem detect_rootFolders (files : List ZipFile) (n : GoString) :
    (files.foldl detectStep { folderCount := [], fileCount := 0, rootFolders := [] }).rootFolders
        = [n] ↔
      n ∈ countedSegments files ∧ ∀ m ∈ countedSegments files, m = n := by
  have hinv := detect_foldl_inv files
    { folderCount := [], fileCount := 0, rootFolders := [] } []
    ⟨by simp [mapGet], by simp, by simp⟩
  obtain ⟨_, hnodup, hroot⟩ := hinv
  rw [List.nil_append] at hroot
  rw [nodup_eq_singleton hnodup]
  simp only [hroot]

theorem detectRootFolder_eq_iff (files : List ZipFile) (n : GoString) :
    (detectRootFolder files = n ∧ n ≠ []) ↔
      (n ∈ countedSegments files ∧ (∀ m ∈ countedSegments files, m = n) ∧
        looksLikeAppRoot n = true) := by
  rw [← and_assoc, ← detect_rootFolders]
  unfold detectRootFolder
  simp only []
  constructor
  · rintro ⟨hd, hn⟩
    split at hd
    · rename_i r hr
      split at hd
      · rename_i hlooks
        subst hd
        exact ⟨hr, hlooks⟩
      · exact absurd hd.symm hn
    · exact absurd hd.symm hn
  · rintro ⟨hr, hlooks⟩
    have hne : n ≠ [] := by
      apply countedSegments_ne_nil files
      exact ((detect_rootFolders files n).mp hr).1
    rw [hr]
    simp [hlooks, hne]

/-- Claim C8, as stated, fails. In the archive of the directory entries `app/`
and `docs` (the second a directory by its mode, without a final slash) the
first segments over all entries are `app` and `docs`, yet `detectRootFolder`
returns `app`; and for the single entry `/app/run`, whose first piece split at
`/` is empty, it returns `app` as well. -/
theorem detectRootFolder_not_over_all_entries :
    detectRootFolder [entryNamed "app/" false, entryNamed "docs" true] = "app".toList ∧
    ¬ onlyFirstSegment [entryNamed "app/" false, entryNamed "docs" true] "app".toList ∧
    detectRootFolder [entryNamed "/app/run" false] = "app".toList ∧
    ¬ onlyFirstSegment [entryNamed "/app/run" false] "app".toList := by
  unfold onlyFirstSegment
  decide

/-- Claim C8, amended. `detectRootFolder` returns a non-empty name `n` exactly
when `n` is the one and only counted first segment (over the entries that are
not directory entries without a final slash, names trimmed of slashes, empty
segments left out) and lower-cased `n` contains `lumentv` or `app`; in every
other case it returns the empty string. Entries all under `LumenTV-v2/` give
`LumenTV-v2`; entries `a/x` and `b/y` give none; entries all under `docs/` give
none. -/
theorem detectRootFolder_spec (files : List ZipFile) (n : GoString) :
    ((detectRootFolder files = n ∧ n ≠ []) ↔
      (n ∈ countedSegments files ∧ (∀ m ∈ countedSegments files, m = n) ∧
        looksLikeAppRoot n = true)) ∧
    (detectRootFolder files = [] ↔
      ¬ ∃ k, k ∈ countedSegments files ∧ (∀ m ∈ countedSegments files, m = k) ∧
        looksLikeAppRoot k = true) ∧
    detectRootFolder [entryNamed "LumenTV-v2/" false, entryNamed "LumenTV-v2/LumenTV" false,
      entryNamed "LumenTV-v2/data/a.txt" false] = "LumenTV-v2".toList ∧
    detectRootFolder [entryNamed "a/x" false, entryNamed "b/y" false] = [] ∧
    detectRootFolder [entryNamed "docs/" false, entryNamed "docs/x" false,
      entryNamed "docs/y" false] = [] := by
  refine ⟨detectRootFolder_eq_iff files n, ?_, by decide, by decide, by decide⟩
  constructor
  · rintro h ⟨k, hk⟩
    have := (detectRootFolder_eq_iff files k).mpr hk
    exact this.2 (this.1.symm.trans h)
  · intro h
    by_contra hne
    exact h ⟨_, (detectRootFolder_eq_iff files (detectRootFolder files)).mp ⟨rfl, hne⟩⟩


/-! ## Cleaned paths and the destination of an entry -/

theorem Split_no_sep_mem (s : GoString) (sep : Char) :
    ∀ p ∈ strings.Split s sep, sep ∉ p := by
  induction s with
  | nil => simp [strings.Split]
  | cons c cs ih =>
    intro p hp
    unfold strings.Split at hp
    split at hp
    · rcases List.mem_cons.mp hp with h | h
      · simp [h]
      · exact ih p h
    · rename_i hc
      split at hp
      · simp only [List.mem_singleton] at hp
        subst hp
        simpa using fun h => hc h.symm
      · rename_i x xs hs
        rcases List.mem_cons.mp hp with h | h
        · subst h
          have hx := ih x (by simp [hs])
          simp only [List.mem_cons, not_or]
          exact ⟨fun h => hc h.symm, hx⟩
        · exact ih p (by simp [hs, h])

theorem Split_of_no_sep (e : GoString) (sep : Char) (h : sep ∉ e) :
    strings.Split e sep = [e] := by
  induction e with
  | nil => simp [strings.Split]
  | cons c cs ih =>
    simp only [List.mem_cons, not_or] at h
    have hc : ¬ c = sep := fun e => h.1 e.symm
    simp [strings.Split, hc, ih h.2]

theorem intercalate_cons_cons (sep a b : GoString) (l : List GoString) :
    sep.intercalate (a :: b :: l) = a ++ sep ++ sep.intercalate (b :: l) := by
  simp [List.intercalate, List.intersperse]

theorem Split_intercalate (sep : Char) (E : List GoString) (hne : E ≠ [])
    (h : ∀ e ∈ E, sep ∉ e) : strings.Split ([sep].intercalate E) sep = E := by
  induction E with
  | nil => exact absurd rfl hne
  | cons e es ih =>
    cases es with
    | nil =>
      have : [sep].intercalate [e] = e := by simp [List.intercalate, List.intersperse]
      rw [this]
      exact Split_of_no_sep e sep (h e (by simp))
    | cons e2 es2 =>
      rw [intercalate_cons_cons]
      have : e ++ [sep] ++ [sep].intercalate (e2 :: es2) =
          e ++ sep :: [sep].intercalate (e2 :: es2) := by simp
      rw [this, Split_append_sep, Split_of_no_sep e sep (h e (by simp)),
        ih (by simp) (fun x hx => h x (List.mem_cons_of_mem _ hx))]
      simp

theorem cleanStep_inv (r : Bool) (st : List GoString) (e : GoString)
    (hsep : filepath.Separator ∉ e) (h : StackInv r st) :
    StackInv r (filepath.cleanStep r st e) := by
  obtain ⟨hv, hr, hc⟩ := h
  unfold filepath.cleanStep
  split
  · exact ⟨hv, hr, hc⟩
  · rename_i hnorm
    simp only [not_or] at hnorm
    split
    · rename_i hdd
      subst hdd
      cases st with
      | nil =>
        cases r with
        | true => simp [StackInv]
        | false =>
          refine ⟨?_, by simp, by simp⟩
          intro e he
          simp only [ite_false, List.mem_singleton, Bool.false_eq_true] at he
          subst he
          exact ⟨hnorm.1, hnorm.2, hsep⟩
      | cons top rest =>
        simp only []
        split
        · rename_i htop
          subst htop
          refine ⟨?_, ?_, ?_⟩
          · intro e he
            rcases List.mem_cons.mp he with h | h
            · subst h; exact ⟨hnorm.1, hnorm.2, hsep⟩
            · exact hv e h
          · intro hrt
            exact absurd (List.mem_cons_self _ _) (hr hrt)
          · exact List.Chain'.cons (fun _ => rfl) hc
        · refine ⟨fun e he => hv e (List.mem_cons_of_mem _ he), ?_, hc.tail⟩
          intro hrt hin
          exact hr hrt (List.mem_cons_of_mem _ hin)
    · rename_i hdd
      refine ⟨?_, ?_, ?_⟩
      · intro x hx
        rcases List.mem_cons.mp hx with h | h
        · subst h; exact ⟨hnorm.1, hnorm.2, hsep⟩
        · exact hv x h
      · intro hrt hin
        rcases List.mem_cons.mp hin with h | h
        · exact hdd h.symm
        · exact hr hrt h
      · cases st with
        | nil => simp
        | cons top rest => exact List.Chain'.cons (fun h => absurd h hdd) hc

theorem foldl_cleanStep_inv (r : Bool) (pieces : List GoString) (st : List GoString)
    (hsep : ∀ e ∈ pieces, filepath.Separator ∉ e) (h : StackInv r st) :
    StackInv r (pieces.foldl (filepath.cleanStep r) st) := by
  induction pieces generalizing st with
  | nil => exact h
  | cons e es ih =>
    rw [List.foldl_cons]
    exact ih _ (fun x hx => hsep x (List.mem_cons_of_mem _ hx))
      (cleanStep_inv r st e (hsep e (by simp)) h)

theorem cleanElems_stack (path : GoString) :
    StackInv (strings.HasPrefix path [filepath.Separator])
      ((strings.Split path filepath.Separator).foldl
        (filepath.cleanStep (strings.HasPrefix path [filepath.Separator])) []) :=
  foldl_cleanStep_inv _ _ _ (Split_no_sep_mem path filepath.Separator)
    ⟨by simp, by simp, by simp⟩

theorem foldl_cleanStep_push (r : Bool) (E acc : List GoString)
    (hv : ∀ e ∈ E, ValidElem e) (hr : r = true → ['.', '.'] ∉ E)
    (hc : (E.reverse ++ acc).Chain' (fun a b => a = ['.', '.'] → b = ['.', '.'])) :
    E.foldl (filepath.cleanStep r) acc = E.reverse ++ acc := by
  induction E generalizing acc with
  | nil => simp
  | cons e es ih =>
    have hve := hv e (by simp)
    have hc1 : (es.reverse ++ (e :: acc)).Chain' (fun a b => a = ['.', '.'] → b = ['.', '.']) := by
      simpa using hc
    have hstep : filepath.cleanStep r acc e = e :: acc := by
      unfold filepath.cleanStep
      have h1 : ¬ (e = [] ∨ e = ['.']) := by
        simp only [not_or]; exact ⟨hve.1, hve.2.1⟩
      simp only [h1, if_false]
      split
      · rename_i hdd
        subst hdd
        have hrf : r = false := by
          cases r with
          | false => rfl
          | true => exact absurd (List.mem_cons_self _ _) (hr rfl)
        cases acc with
        | nil => simp [hrf]
        | cons top rest =>
          have htop : top = ['.', '.'] := by
            have h2 := (List.chain'_append.mp hc1).2.1
            exact (List.chain'_cons.mp h2).1 rfl
          simp [htop]
      · rfl
    rw [List.foldl_cons, hstep, ih (e :: acc) (fun x hx => hv x (List.mem_cons_of_mem _ hx))
      (fun h hin => hr h (List.mem_cons_of_mem _ hin)) hc1]
    simp

theorem HasPrefix_sep_cons (c : Char) (t : GoString) :
    strings.HasPrefix (c :: t) [filepath.Separator] = decide (c = filepath.Separator) := by
  by_cases h : c = filepath.Separator
  · simp [strings.HasPrefix, List.isPrefixOf, h]
  · have h2 : ¬ filepath.Separator = c := fun e => h e.symm
    simp [strings.HasPrefix, List.isPrefixOf, h, h2]

theorem intercalate_head (E : List GoString) (e : GoString) (es : List GoString)
    (hE : E = e :: es) (hv : ValidElem e) :
    ∃ c t, [filepath.Separator].intercalate E = c :: t ∧ c ≠ filepath.Separator := by
  subst hE
  obtain ⟨hne, _, hsep⟩ := hv
  cases e with
  | nil => exact absurd rfl hne
  | cons c e1 =>
    have hc : c ≠ filepath.Separator := by
      intro h; exact hsep (by simp [h])
    cases es with
    | nil => exact ⟨c, e1, by simp [List.intercalate, List.intersperse], hc⟩
    | cons e2 es2 =>
      exact ⟨c, e1 ++ filepath.Separator :: [filepath.Separator].intercalate (e2 :: es2),
        by rw [intercalate_cons_cons]; simp, hc⟩

theorem Clean_roundtrip (x : GoString) :
    strings.HasPrefix (filepath.Clean x) [filepath.Separator] =
        strings.HasPrefix x [filepath.Separator] ∧
      filepath.cleanElems (filepath.Clean x) = filepath.cleanElems x := by
  have hinv := cleanElems_stack x
  obtain ⟨hv, hr, hc⟩ := hinv
  have hE : ∀ e ∈ filepath.cleanElems x, ValidElem e := by
    intro e he
    exact hv e (by simpa [filepath.cleanElems] using he)
  have hpush : ∀ r, (r = true → strings.HasPrefix x [filepath.Separator] = true) →
      (filepath.cleanElems x).foldl (filepath.cleanStep r) [] =
        (filepath.cleanElems x).reverse := by
    intro r hrr
    have := foldl_cleanStep_push r (filepath.cleanElems x) [] hE
      (by
        intro h hin
        exact hr (hrr h) (by simpa [filepath.cleanElems] using hin))
      (by simpa [filepath.cleanElems] using hc)
    simpa using this
  have hcl : filepath.Clean x =
      if (if strings.HasPrefix x [filepath.Separator] then [filepath.Separator] else [])
          ++ [filepath.Separator].intercalate (filepath.cleanElems x) = [] then ['.']
      else (if strings.HasPrefix x [filepath.Separator] then [filepath.Separator] else [])
          ++ [filepath.Separator].intercalate (filepath.cleanElems x) := rfl
  have hdef : ∀ y, filepath.cleanElems y =
      ((strings.Split y filepath.Separator).foldl
        (filepath.cleanStep (strings.HasPrefix y [filepath.Separator])) []).reverse :=
    fun _ => rfl
  rw [hcl]
  clear hcl hv hr hc
  generalize filepath.cleanElems x = E at *
  have hskip : ∀ st, filepath.cleanStep true st [] = st := by
    intro st; simp [filepath.cleanStep]
  cases hroot : strings.HasPrefix x [filepath.Separator] with
  | true =>
    simp only [if_true, List.cons_append, List.nil_append, if_false, reduceCtorEq]
    refine ⟨by simp [HasPrefix_sep_cons], ?_⟩
    have hsplit : strings.Split (filepath.Separator ::
        [filepath.Separator].intercalate E) filepath.Separator =
        [] :: strings.Split ([filepath.Separator].intercalate E) filepath.Separator := by
      simp [strings.Split]
    rw [hdef, HasPrefix_sep_cons, hsplit]
    simp only [decide_True, List.foldl_cons, hskip]
    by_cases hnil : E = []
    · rw [hnil]
      simp [List.intercalate, strings.Split, hskip]
    · rw [Split_intercalate _ _ hnil (fun e he => (hE e he).2.2), hpush true (fun _ => hroot)]
      simp
  | false =>
    by_cases hnil : E = []
    · rw [hnil]
      decide
    · obtain ⟨e, es, hes⟩ := List.exists_cons_of_ne_nil hnil
      obtain ⟨c, t, hct, hcsep⟩ := intercalate_head _ e es hes (hE e (by simp [hes]))
      have hpre : strings.HasPrefix ([filepath.Separator].intercalate E)
          [filepath.Separator] = false := by
        rw [hct, HasPrefix_sep_cons]
        simp [hcsep]
      have hne : [filepath.Separator].intercalate E ≠ [] := by
        rw [hct]; simp
      simp only [Bool.false_eq_true, if_false, List.nil_append, hne]
      refine ⟨hpre, ?_⟩
      rw [hdef, hpre, Split_intercalate _ _ hnil (fun e he => (hE e he).2.2),
        hpush false (by simp)]
      simp

/-- Claim C10, as stated, fails. The entry `../evil` extracted to `/opt/lumen/`
has the path `/opt/evil`, is not skipped, and is written there, outside the
destination. -/
theorem extractZip_escapes_dest :
    detectRootFolder climbingArchive = [] ∧
    entryPath [] "/opt/lumen/".toList
      { Name := "../evil".toList, modeDir := false, content := "x".toList }
      = "/opt/evil".toList ∧
    skipEntry [] "/opt/lumen/".toList "/opt/evil".toList = false ∧
    ¬ Within "/opt/lumen/".toList "/opt/evil".toList ∧
    os.stat (extractZip (.ok climbingArchive) "/opt/lumen/".toList emptyTarget).2
      (pathOf ["opt", "evil"]) = some (Node.file "x".toList) := by
  unfold Within
  decide

/-! ## Backup and restore on the file system -/

theorem stripPath_eq_some (p q r : Path) : stripPath p q = some r ↔ q = p ++ r := by
  induction p generalizing q with
  | nil => simp [stripPath, eq_comm]
  | cons a p ih =>
    cases q with
    | nil => simp [stripPath]
    | cons b q =>
      by_cases h : a = b
      · subst h; simp [stripPath, ih]
      · have h2 : ¬ b = a := fun e => h e.symm
        simp [stripPath, h, h2]

theorem stripPath_append (p r : Path) : stripPath p (p ++ r) = some r :=
  (stripPath_eq_some p (p ++ r) r).mpr rfl

theorem stripPath_eq_none (p q : Path) : stripPath p q = none ↔ ¬ p <+: q := by
  constructor
  · intro h ⟨r, hr⟩
    have := (stripPath_eq_some p q r).mpr hr.symm
    rw [h] at this
    exact absurd this (by simp)
  · intro h
    cases hs : stripPath p q with
    | none => rfl
    | some r => exact absurd ⟨r, ((stripPath_eq_some p q r).mp hs).symm⟩ h

theorem not_prefix_append_of_disjoint {D B : Path} (h1 : ¬ D <+: B) (h2 : ¬ B <+: D)
    (a b : Path) : ¬ (B ++ a <+: D ++ b) := by
  intro h
  have hB : B <+: D ++ b := (List.prefix_append B a).trans h
  have hD : D <+: D ++ b := List.prefix_append D b
  rcases List.prefix_or_prefix_of_prefix hB hD with h | h
  · exact h2 h
  · exact h1 h

theorem stat_of_ne_nil (s : FS) (p : Path) (h : p ≠ []) : os.stat s p = os.find s p := by
  simp [os.stat, h]

theorem find_filter_key (s : FS) (f : Path → Bool) (x : Path) :
    os.find (s.filter (fun e => f e.1)) x = if f x = true then os.find s x else none := by
  induction s with
  | nil => simp [os.find]
  | cons e rest ih =>
    obtain ⟨q, n⟩ := e
    by_cases hq : f q = true
    · rw [List.filter_cons_of_pos (by simpa using hq)]
      by_cases hx : q = x
      · subst hx; simp [os.find, hq]
      · simp [os.find, hx, ih]
    · rw [List.filter_cons_of_neg (by simpa using hq)]
      by_cases hx : q = x
      · subst hx; simp [os.find, hq, ih]
      · simp [os.find, hx, ih]

theorem find_erase (s : FS) (p x : Path) :
    os.find (os.erase s p) x = if x = p then none else os.find s x := by
  have := find_filter_key s (fun q => decide (q ≠ p)) x
  unfold os.erase
  rw [this]
  by_cases h : x = p <;> simp [h]

theorem find_set (s : FS) (p x : Path) (n : Node) :
    os.find (os.set s p n) x = if x = p then some n else os.find s x := by
  unfold os.set
  by_cases h : x = p
  · subst h; simp [os.find]
  · have h2 : ¬ p = x := fun e => h e.symm
    simp [os.find, h, h2, find_erase]

theorem stat_set (s : FS) (p x : Path) (n : Node) (hp : p ≠ []) :
    os.stat (os.set s p n) x = if x = p then some n else os.stat s x := by
  by_cases hx : x = []
  · subst hx
    have : ¬ ([] : Path) = p := fun e => hp e.symm
    simp [os.stat, this]
  · simp [os.stat, hx, find_set]

theorem find_append (a b : FS) (x : Path) :
    os.find (a ++ b) x = match os.find a x with
      | some n => some n
      | none => os.find b x := by
  induction a with
  | nil => simp [os.find]
  | cons e rest ih =>
    obtain ⟨q, n⟩ := e
    by_cases hx : q = x
    · simp [os.find, hx]
    · simp [os.find, hx, ih]

theorem find_moved (s : FS) (old new q : Path) :
    os.find (os.moved s old new) (new ++ q) = os.find s (old ++ q) := by
  induction s with
  | nil => simp [os.moved, os.find]
  | cons e rest ih =>
    obtain ⟨k, n⟩ := e
    unfold os.moved at ih ⊢
    rw [List.filterMap_cons]
    cases hs : stripPath old k with
    | none =>
      have hk : ¬ k = old ++ q := by
        intro e
        have := (stripPath_eq_some old k q).mpr e
        rw [hs] at this
        exact absurd this (by simp)
      simp only [hs]
      simp [os.find, hk, ih]
    | some r =>
      have hk := (stripPath_eq_some old k r).mp hs
      simp only [hs]
      by_cases hr : r = q
      · subst hr; simp [os.find, hk]
      · have h1 : ¬ new ++ r = new ++ q := by simpa using hr
        have h2 : ¬ k = old ++ q := by rw [hk]; simpa using hr
        simp [os.find, h1, h2, ih]

theorem find_moved_none (s : FS) (old new x : Path) (h : ¬ new <+: x) :
    os.find (os.moved s old new) x = none := by
  induction s with
  | nil => simp [os.moved, os.find]
  | cons e rest ih =>
    obtain ⟨k, n⟩ := e
    unfold os.moved at ih ⊢
    rw [List.filterMap_cons]
    cases hs : stripPath old k with
    | none => simpa only [hs] using ih
    | some r =>
      have h1 : ¬ new ++ r = x := by
        intro e; exact h ⟨r, e⟩
      simp only [hs]
      simp [os.find, h1, ih]

theorem find_ne_none_iff (s : FS) (x : Path) :
    os.find s x ≠ none ↔ ∃ e : Path × Node, e ∈ s ∧ e.1 = x := by
  induction s with
  | nil => simp [os.find]
  | cons e rest ih =>
    obtain ⟨q, n⟩ := e
    by_cases hx : q = x
    · simp [os.find, hx]
    · simp [os.find, hx, ih]

theorem mem_childNames (s : FS) (p : Path) (n : GoString) :
    n ∈ os.childNames s p ↔ os.find s (p ++ [n]) ≠ none := by
  rw [find_ne_none_iff]
  unfold os.childNames
  rw [List.mem_filterMap]
  constructor
  · rintro ⟨e, he, hn⟩
    refine ⟨e, he, ?_⟩
    split at hn
    · rename_i m hs
      simp only [Option.some.injEq] at hn
      subst hn
      exact (stripPath_eq_some p e.1 [m]).mp hs
    · simp at hn
  · rintro ⟨e, he, hk⟩
    refine ⟨e, he, ?_⟩
    rw [hk, stripPath_append]

theorem mem_insertSorted (x y : GoString) (l : List GoString) :
    y ∈ insertSorted x l ↔ y = x ∨ y ∈ l := by
  induction l with
  | nil => simp [insertSorted]
  | cons a l ih =>
    unfold insertSorted
    split
    · simp
    · simp only [List.mem_cons, ih]
      tauto

theorem mem_sortStrings (y : GoString) (l : List GoString) :
    y ∈ sortStrings l ↔ y ∈ l := by
  induction l with
  | nil => simp [sortStrings]
  | cons a l ih =>
    have : sortStrings (a :: l) = insertSorted a (sortStrings l) := rfl
    rw [this, mem_insertSorted, ih]
    simp

theorem nodup_insertSorted (x : GoString) (l : List GoString) (hl : l.Nodup) (hx : x ∉ l) :
    (insertSorted x l).Nodup := by
  induction l with
  | nil => simp [insertSorted]
  | cons a l ih =>
    unfold insertSorted
    split
    · exact List.nodup_cons.mpr ⟨hx, hl⟩
    · rw [List.nodup_cons] at hl ⊢
      simp only [List.mem_cons, not_or] at hx
      refine ⟨?_, ih hl.2 hx.2⟩
      rw [mem_insertSorted]
      simp only [not_or]
      exact ⟨fun e => hx.1 e.symm, hl.1⟩

theorem nodup_sortStrings (l : List GoString) (hl : l.Nodup) : (sortStrings l).Nodup := by
  induction l with
  | nil => simp [sortStrings]
  | cons a l ih =>
    have : sortStrings (a :: l) = insertSorted a (sortStrings l) := rfl
    rw [this]
    rw [List.nodup_cons] at hl
    exact nodup_insertSorted a _ (ih hl.2) (by rw [mem_sortStrings]; exact hl.1)

theorem readDirNames_dir (s : FS) (p : Path) (h : os.stat s p = some Node.dir) :
    ∃ names, os.readDirNames s p = .ok names ∧ names.Nodup ∧
      ∀ n, n ∈ names ↔ os.stat s (p ++ [n]) ≠ none := by
  refine ⟨sortStrings (os.childNames s p).dedup, by simp [os.readDirNames, h],
    nodup_sortStrings _ (List.nodup_dedup _), ?_⟩
  intro n
  rw [mem_sortStrings, List.mem_dedup, mem_childNames, stat_of_ne_nil s (p ++ [n]) (by simp)]

theorem Lstat_of_stat (s : FS) (p : Path) (n : Node) (h : os.stat s p = some n) :
    os.Lstat s p = .ok n := by
  simp [os.Lstat, h]

theorem wf_parent {s : FS} (hwf : WellFormed s) (p q : Path) (hq : q ≠ [])
    (h : os.stat s (p ++ q) ≠ none) : os.stat s p = some Node.dir := by
  induction q using List.reverseRecOn with
  | nil => exact absurd rfl hq
  | append_singleton q1 n ih =>
    rw [← List.append_assoc] at h
    have hpar := (hwf (p ++ q1) n h).1
    by_cases hq1 : q1 = []
    · subst hq1; simpa using hpar
    · exact ih hq1 (by rw [hpar]; simp)

theorem wf_none_below {s : FS} (hwf : WellFormed s) (p q : Path)
    (h : os.stat s p = none) : os.stat s (p ++ q) = none := by
  by_cases hq : q = []
  · subst hq; simpa using h
  · by_contra hne
    have := wf_parent hwf p q hq hne
    rw [h] at this
    exact absurd this (by simp)

theorem wf_file_leaf {s : FS} (hwf : WellFormed s) (p q : Path) (d : GoString)
    (h : os.stat s p = some (Node.file d)) (hq : q ≠ []) : os.stat s (p ++ q) = none := by
  by_contra hne
  have := wf_parent hwf p q hq hne
  rw [h] at this
  exact absurd this (by simp)

theorem wf_valid_names {s : FS} (hwf : WellFormed s) (p r : Path)
    (h : os.stat s (p ++ r) ≠ none) :
    ∀ n ∈ r, n ≠ [] ∧ n ≠ ['.'] ∧ n ≠ ['.', '.'] := by
  induction r using List.reverseRecOn with
  | nil => simp
  | append_singleton r1 n ih =>
    rw [← List.append_assoc] at h
    have hn := hwf (p ++ r1) n h
    intro m hm
    rcases List.mem_append.mp hm with hm | hm
    · exact ih (by rw [hn.1]; simp) m hm
    · simp only [List.mem_singleton] at hm
      subst hm
      exact hn.2

theorem dropCommon_self_append (D r : Path) : fspath.dropCommon D (D ++ r) = ([], r) := by
  induction D with
  | nil => cases r <;> simp [fspath.dropCommon]
  | cons a D ih => simp [fspath.dropCommon, ih]

theorem Rel_self_append (D r : Path) : fspath.Rel D (D ++ r) = .ok r := by
  simp [fspath.Rel, dropCommon_self_append]

theorem foldl_cleanStep_valid (rel st : List GoString)
    (h : ∀ n ∈ rel, n ≠ [] ∧ n ≠ ['.'] ∧ n ≠ ['.', '.']) :
    rel.foldl (filepath.cleanStep true) st = rel.reverse ++ st := by
  induction rel generalizing st with
  | nil => simp
  | cons e es ih =>
    have he := h e (by simp)
    have hstep : filepath.cleanStep true st e = e :: st := by
      simp [filepath.cleanStep, he.1, he.2.1, he.2.2]
    rw [List.foldl_cons, hstep, ih _ (fun n hn => h n (List.mem_cons_of_mem _ hn))]
    simp

theorem Join_valid (B r : Path) (h : ∀ n ∈ r, n ≠ [] ∧ n ≠ ['.'] ∧ n ≠ ['.', '.']) :
    fspath.Join B r = B ++ r := by
  simp [fspath.Join, foldl_cleanStep_valid r _ h]

theorem MkdirAllRev_child (rp : List GoString) (n : GoString) (s : FS)
    (hnone : os.stat s (rp.reverse ++ [n]) = none)
    (hpar : os.stat s rp.reverse = some Node.dir) :
    os.MkdirAllRev (n :: rp) s = .ok (os.set s (rp.reverse ++ [n]) Node.dir) := by
  have hrev : (n :: rp).reverse = rp.reverse ++ [n] := by simp
  have hparent : os.MkdirAllRev rp s = .ok s := by
    cases rp with
    | nil => simp [os.MkdirAllRev]
    | cons m rp1 => simp only [os.MkdirAllRev, hpar]
  have hmk : os.Mkdir s (rp.reverse ++ [n]) = .ok (os.set s (rp.reverse ++ [n]) Node.dir) := by
    simp [os.Mkdir, hnone, hpar]
  simp only [os.MkdirAllRev, hrev, hnone, hparent, hmk]

theorem MkdirAll_child (p : Path) (s : FS) (hp : p ≠ [])
    (hnone : os.stat s p = none) (hpar : os.stat s p.dropLast = some Node.dir) :
    os.MkdirAll p s = (none, os.set s p Node.dir) := by
  obtain ⟨q, n, rfl⟩ : ∃ q n, p = q ++ [n] :=
    ⟨p.dropLast, p.getLast hp, (List.dropLast_append_getLast hp).symm⟩
  have h := MkdirAllRev_child q.reverse n s (by simpa using hnone) (by simpa using hpar)
  simp only [List.reverse_reverse] at h
  simp [os.MkdirAll, h]

theorem MkdirAllRev_spec (rp : List GoString) (s : FS)
    (hanc : ∀ a, a <+: rp.reverse → isFileAt (os.stat s a) = false) :
    ∃ s1, os.MkdirAllRev rp s = .ok s1 ∧ os.stat s1 rp.reverse = some Node.dir ∧
      (∀ x, ¬ x <+: rp.reverse → os.stat s1 x = os.stat s x) ∧
      (∀ x, os.stat s x ≠ none → os.stat s1 x = os.stat s x) := by
  induction rp with
  | nil => exact ⟨s, by simp [os.MkdirAllRev], by simp [os.stat], fun _ _ => rfl, fun _ _ => rfl⟩
  | cons n rp ih =>
    have hrev : (n :: rp).reverse = rp.reverse ++ [n] := by simp
    rw [hrev] at hanc ⊢
    cases hst : os.stat s (rp.reverse ++ [n]) with
    | some node =>
      cases node with
      | dir =>
        exact ⟨s, by simp [os.MkdirAllRev, hst], hst, fun _ _ => rfl, fun _ _ => rfl⟩
      | file d =>
        have := hanc _ (List.prefix_refl _)
        simp [hst, isFileAt, Node.isFile] at this
    | none =>
      obtain ⟨s1, h1, hdir, hframe, hkeep⟩ :=
        ih (fun a ha => hanc a (ha.trans (List.prefix_append _ _)))
      have hnot : ¬ (rp.reverse ++ [n]) <+: rp.reverse := by
        intro h
        have := h.length_le
        simp at this
      have hnone1 : os.stat s1 (rp.reverse ++ [n]) = none := by
        rw [hframe _ hnot, hst]
      have hne : rp.reverse ++ [n] ≠ [] := by simp
      have hmk : os.Mkdir s1 (rp.reverse ++ [n]) =
          .ok (os.set s1 (rp.reverse ++ [n]) Node.dir) := by
        simp [os.Mkdir, hnone1, hdir]
      refine ⟨os.set s1 (rp.reverse ++ [n]) Node.dir, ?_, ?_, ?_, ?_⟩
      · simp only [os.MkdirAllRev, hrev, hst, h1, hmk]
      · rw [stat_set _ _ _ _ hne]; simp
      · intro x hx
        have hx1 : x ≠ rp.reverse ++ [n] := fun e => hx (e ▸ List.prefix_refl _)
        have hx2 : ¬ x <+: rp.reverse := fun h => hx (h.trans (List.prefix_append _ _))
        rw [stat_set _ _ _ _ hne, if_neg hx1, hframe x hx2]
      · intro x hx
        have hx1 : x ≠ rp.reverse ++ [n] := fun e => hx (e ▸ hst)
        rw [stat_set _ _ _ _ hne, if_neg hx1, hkeep x hx]

theorem MkdirAll_spec (p : Path) (s : FS)
    (hanc : ∀ a, a <+: p → isFileAt (os.stat s a) = false) :
    ∃ s1, os.MkdirAll p s = (none, s1) ∧ os.stat s1 p = some Node.dir ∧
      (∀ x, ¬ x <+: p → os.stat s1 x = os.stat s x) ∧
      (∀ x, os.stat s x ≠ none → os.stat s1 x = os.stat s x) := by
  obtain ⟨s1, h1, h2, h3, h4⟩ := MkdirAllRev_spec p.reverse s (by simpa using hanc)
  simp only [List.reverse_reverse] at h2 h3
  exact ⟨s1, by simp [os.MkdirAll, h1], h2, h3, h4⟩

theorem not_prefix_child_parent (p : Path) (n : GoString) : ¬ (p ++ [n] <+: p) := by
  intro h
  have := h.length_le
  simp at this

theorem not_prefix_sibling (p q : Path) (n m : GoString) (h : m ≠ n) :
    ¬ (p ++ [n] <+: p ++ m :: q) := by
  intro hp
  rw [List.prefix_append_right_inj] at hp
  obtain ⟨t, ht⟩ := hp
  simp at ht
  exact h ht.1.symm

theorem walkNames_backup {s0 : FS} {D B : Path} {d : Nat}
    (h1 : ¬ D <+: B) (h2 : ¬ B <+: D)
    (hspec : BackupNodeSpec s0 D B d) (base : FS) (r : Path)
    (hbase : ∀ q, os.stat base (D ++ q) = os.stat s0 (D ++ q))
    (hbound : ∀ n q, os.stat s0 (D ++ r ++ n :: q) ≠ none → q.length < d) :
    ∀ (todo done : List GoString) (t : FS), todo.Nodup → (∀ n ∈ todo, n ∉ done) →
      (∀ n ∈ todo, os.stat s0 (D ++ r ++ [n]) ≠ none) →
      BackupLoopInv s0 base D B r done t →
      ∃ t1, fspath.walkNames (fspath.walk (backupWalkFn D B) d) (backupWalkFn D B) (D ++ r)
          todo t = (none, t1) ∧ BackupLoopInv s0 base D B r (done ++ todo) t1 := by
  intro todo
  induction todo with
  | nil =>
    intro done t _ _ _ hinv
    exact ⟨t, by simp [fspath.walkNames], by simpa using hinv⟩
  | cons n todo ih =>
    intro done t hnodup hfresh hexists hinv
    obtain ⟨hJ0, hJ1, hJ2, hJ3⟩ := hinv
    rw [List.nodup_cons] at hnodup
    have hndone : n ∉ done := hfresh n (by simp)
    have hI1 : ∀ q, os.stat t (D ++ q) = os.stat s0 (D ++ q) := by
      intro q
      rw [hJ3 _ (not_prefix_append_of_disjoint h1 h2 r q), hbase]
    obtain ⟨info, hinfo⟩ := Option.ne_none_iff_exists'.mp (hexists n (by simp))
    have hassocD : ∀ q, D ++ (r ++ [n]) ++ q = D ++ r ++ n :: q := by
      intro q; simp
    have hassocB : ∀ q, B ++ (r ++ [n]) ++ q = B ++ r ++ n :: q := by
      intro q; simp
    obtain ⟨t1, hwalk, hp1, hp2⟩ := hspec (r ++ [n]) t info
      (by rw [← List.append_assoc]; exact hinfo)
      hI1
      (by rw [← List.append_assoc, List.dropLast_concat]; exact hJ0)
      (by intro q; rw [hassocB]; exact hJ2 n q hndone)
      (by intro q hq; rw [hassocD] at hq; exact hbound n q hq)
    have hlstat : os.Lstat t (D ++ r ++ [n]) = .ok info := by
      apply Lstat_of_stat
      rw [List.append_assoc, hI1, ← List.append_assoc]
      exact hinfo
    have hwalk1 : fspath.walk (backupWalkFn D B) d (D ++ r ++ [n]) info t = (none, t1) := by
      rw [List.append_assoc]; exact hwalk
    have hinv1 : BackupLoopInv s0 base D B r (done ++ [n]) t1 := by
      refine ⟨?_, ?_, ?_, ?_⟩
      · rw [hp2 _ (by rw [← List.append_assoc]; exact not_prefix_child_parent _ n)]
        exact hJ0
      · intro m q hm
        rcases List.mem_append.mp hm with hm | hm
        · have hmn : m ≠ n := fun e => hndone (e ▸ hm)
          rw [hp2 _ (by rw [← List.append_assoc]; exact not_prefix_sibling _ q n m hmn)]
          exact hJ1 m q hm
        · simp only [List.mem_singleton] at hm
          subst hm
          rw [← hassocB, hp1, hassocD]
      · intro m q hm
        simp only [List.mem_append, List.mem_singleton, not_or] at hm
        rw [hp2 _ (by rw [← List.append_assoc]; exact not_prefix_sibling _ q n m hm.2)]
        exact hJ2 m q hm.1
      · intro x hx
        rw [hp2 x (fun h => hx ((List.prefix_append _ _).trans
          (by rw [← List.append_assoc] at h; exact h))), hJ3 x hx]
    obtain ⟨t2, hrest, hinv2⟩ := ih (done ++ [n]) t1 hnodup.2
      (by
        intro m hm
        simp only [List.mem_append, List.mem_singleton, not_or]
        exact ⟨hfresh m (List.mem_cons_of_mem _ hm), fun e => hnodup.1 (e ▸ hm)⟩)
      (fun m hm => hexists m (List.mem_cons_of_mem _ hm))
      hinv1
    refine ⟨t2, ?_, by simpa using hinv2⟩
    rw [fspath.walkNames]
    simp only [hlstat, hwalk1]
    simpa using hrest

theorem append_ne_of_disjoint {D B : Path} (h1 : ¬ D <+: B) (h2 : ¬ B <+: D) (a b : Path) :
    D ++ a ≠ B ++ b := by
  intro e
  exact not_prefix_append_of_disjoint h1 h2 b a (e ▸ List.prefix_refl _)

theorem walk_backup {s0 : FS} {D B : Path} (hwf : WellFormed s0)
    (h1 : ¬ D <+: B) (h2 : ¬ B <+: D) (hB : B ≠ []) :
    ∀ d, BackupNodeSpec s0 D B d := by
  intro d
  induction d with
  | zero =>
    intro r s info hinfo _ _ _ hbound
    have := hbound [] (by simp [hinfo])
    simp at this
  | succ d ih =>
    intro r s info hinfo hI1 hpar hfresh hbound
    have hvalid := wf_valid_names hwf D r (by rw [hinfo]; simp)
    have hRel := Rel_self_append D r
    have hJoin := Join_valid B r hvalid
    have hne : B ++ r ≠ [] := by simp [hB]
    have hsD : os.stat s (D ++ r) = some info := by rw [hI1, hinfo]
    have hnoneB : os.stat s (B ++ r) = none := by simpa using hfresh []
    cases info with
    | file data =>
      have hOpen : os.OpenFile s (B ++ r) = .ok (os.set s (B ++ r) (Node.file [])) := by
        simp [os.OpenFile, hnoneB, hpar]
      have hsrc : os.stat (os.set s (B ++ r) (Node.file [])) (D ++ r) =
          some (Node.file data) := by
        rw [stat_set _ _ _ _ hne, if_neg (append_ne_of_disjoint h1 h2 r r), hsD]
      have hcopy : copyFile (D ++ r) (B ++ r) s =
          (none, os.set (os.set s (B ++ r) (Node.file [])) (B ++ r) (Node.file data)) := by
        simp [copyFile, Lstat_of_stat _ _ _ hsD, hOpen, hsrc]
      refine ⟨os.set (os.set s (B ++ r) (Node.file [])) (B ++ r) (Node.file data), ?_, ?_, ?_⟩
      · rw [fspath.walk]
        simp [Node.IsDir, backupWalkFn, hRel, hJoin, hcopy]
      · intro q
        by_cases hq : q = []
        · subst hq
          simp [stat_set _ _ _ _ hne, hinfo]
        · have hx : B ++ r ++ q ≠ B ++ r := by simpa using hq
          rw [stat_set _ _ _ _ hne, if_neg hx, stat_set _ _ _ _ hne, if_neg hx, hfresh q,
            wf_file_leaf hwf (D ++ r) q data hinfo hq]
      · intro x hx
        have hx1 : x ≠ B ++ r := fun e => hx (e ▸ List.prefix_refl _)
        rw [stat_set _ _ _ _ hne, if_neg hx1, stat_set _ _ _ _ hne, if_neg hx1]
    | dir =>
      obtain ⟨names, hread, hnodup, hmem⟩ := readDirNames_dir s (D ++ r) hsD
      have hmk := MkdirAll_child (B ++ r) s hne hnoneB hpar
      have hinv0 : BackupLoopInv s0 s D B r [] (os.set s (B ++ r) Node.dir) := by
        refine ⟨by simp [stat_set _ _ _ _ hne], by simp, ?_, ?_⟩
        · intro n q _
          have hx : B ++ r ++ n :: q ≠ B ++ r := by simp
          rw [stat_set _ _ _ _ hne, if_neg hx, hfresh]
        · intro x hx
          have hx1 : x ≠ B ++ r := fun e => hx (e ▸ List.prefix_refl _)
          rw [stat_set _ _ _ _ hne, if_neg hx1]
      obtain ⟨t1, hloop, hJ0, hJ1, hJ2, hJ3⟩ := walkNames_backup h1 h2 ih s r hI1
        (by
          intro n q hq
          have := hbound (n :: q) hq
          simpa using this)
        names [] (os.set s (B ++ r) Node.dir) hnodup (by simp)
        (by
          intro n hn
          have := (hmem n).mp hn
          rwa [List.append_assoc, hI1, ← List.append_assoc] at this)
        hinv0
      refine ⟨t1, ?_, ?_, ?_⟩
      · rw [fspath.walk]
        simp [Node.IsDir, hread, backupWalkFn, hRel, hJoin, hmk, hloop]
      · intro q
        cases q with
        | nil => simpa [hinfo] using hJ0
        | cons n q =>
          by_cases hn : n ∈ names
          · exact hJ1 n q (by simpa using hn)
          · rw [hJ2 n q (by simpa using hn)]
            have hnone : os.stat s0 (D ++ r ++ [n]) = none := by
              by_contra hc
              apply hn
              apply (hmem n).mpr
              rwa [List.append_assoc, hI1, ← List.append_assoc]
            have := wf_none_below hwf (D ++ r ++ [n]) q hnone
            simpa using this.symm
      · exact hJ3

theorem backupDirectory_spec (s0 : FS) (D B : Path) (depth : Nat) (hwf : WellFormed s0)
    (hD : os.stat s0 D = some Node.dir) (hB : os.stat s0 B = none) (hout : ¬ D <+: B)
    (hdepth : ∀ q, os.stat s0 (D ++ q) ≠ none → q.length < depth)
    (hanc : ∀ a, a <+: B → isFileAt (os.stat s0 a) = false) :
    ∃ s1, backupDirectory depth D B s0 = (none, s1) ∧
      (∀ q, os.stat s1 (B ++ q) = os.stat s0 (D ++ q)) ∧
      (∀ x, ¬ B <+: x → os.stat s0 x ≠ none → os.stat s1 x = os.stat s0 x) := by
  have hBne : B ≠ [] := by
    intro e; subst e; simp [os.stat] at hB
  have h2 : ¬ B <+: D := by
    rintro ⟨c, hc⟩
    have := wf_none_below hwf B c hB
    rw [hc, hD] at this
    exact absurd this (by simp)
  obtain ⟨d, hd⟩ : ∃ d, depth = d + 1 := by
    have := hdepth [] (by simp [hD])
    exact ⟨depth - 1, by simp at this; omega⟩
  subst hd
  obtain ⟨names, hread, hnodup, hmem⟩ := readDirNames_dir s0 D hD
  obtain ⟨sB, hmk, hBdir, hframe, hkeep⟩ := MkdirAll_spec B s0 hanc
  have hbase : ∀ q, os.stat sB (D ++ q) = os.stat s0 (D ++ q) := by
    intro q
    exact hframe _ (fun h => hout ((List.prefix_append D q).trans h))
  have hinv0 : BackupLoopInv s0 sB D B [] [] sB := by
    refine ⟨by simpa using hBdir, by simp, ?_, fun _ _ => rfl⟩
    intro n q _
    have hnot : ¬ (B ++ [] ++ n :: q <+: B) := by
      intro h
      have := h.length_le
      simp at this
    rw [hframe _ hnot]
    simpa using wf_none_below hwf B (n :: q) hB
  obtain ⟨t1, hloop, hJ0, hJ1, hJ2, hJ3⟩ := walkNames_backup hout h2
    (walk_backup hwf hout h2 hBne d) sB [] hbase
    (by
      intro n q hq
      have := hdepth (n :: q) (by simpa using hq)
      simpa using this)
    names [] sB hnodup (by simp)
    (by
      intro n hn
      simpa using (hmem n).mp hn)
    hinv0
  simp only [List.append_nil] at hloop hJ0 hJ1 hJ2 hJ3
  have hRel : fspath.Rel D D = .ok [] := by
    have := Rel_self_append D []
    simpa using this
  have hJoin : fspath.Join B [] = B := by simp [fspath.Join]
  have hw : fspath.walk (backupWalkFn D B) (d + 1) D Node.dir s0 = (none, t1) := by
    rw [fspath.walk]
    simp [Node.IsDir, hread, backupWalkFn, hRel, hJoin, hmk, hloop]
  refine ⟨t1, ?_, ?_, ?_⟩
  · unfold backupDirectory fspath.Walk
    simp [Lstat_of_stat _ _ _ hD, hw]
  · intro q
    cases q with
    | nil => simpa [hD] using hJ0
    | cons n q =>
      by_cases hn : n ∈ names
      · exact hJ1 n q (by simpa using hn)
      · rw [hJ2 n q (by simpa using hn)]
        have hnone : os.stat s0 (D ++ [n]) = none := by
          by_contra hc
          exact hn ((hmem n).mpr hc)
        have := wf_none_below hwf (D ++ [n]) q hnone
        simpa using this.symm
  · intro x hx hex
    rw [hJ3 x hx, hkeep x hex]

theorem restoreBackup_spec (s2 : FS) (D B : Path) (h1 : ¬ D <+: B) (h2 : ¬ B <+: D)
    (hBdir : os.stat s2 B = some Node.dir) (hpar : os.stat s2 D.dropLast = some Node.dir) :
    ∃ s4, restoreBackup B D s2 = (none, s4) ∧
      (∀ q, os.stat s4 (D ++ q) = os.stat s2 (B ++ q)) ∧
      (∀ q, os.stat s4 (B ++ q) = none) := by
  have hDne : D ≠ [] := fun e => h1 (e ▸ List.nil_prefix)
  have hBne : B ≠ [] := fun e => h2 (e ▸ List.nil_prefix)
  have hs3 : ∀ x, x ≠ [] → os.stat (s2.filter (fun e => !D.isPrefixOf e.1)) x =
      if D <+: x then none else os.stat s2 x := by
    intro x hx
    rw [stat_of_ne_nil _ _ hx, stat_of_ne_nil _ _ hx,
      find_filter_key s2 (fun k => !D.isPrefixOf k) x]
    by_cases hp : D <+: x
    · simp [hp, List.isPrefixOf_iff_prefix.mpr hp]
    · have : D.isPrefixOf x = false := by
        rw [Bool.eq_false_iff]
        intro h
        exact hp (List.isPrefixOf_iff_prefix.mp h)
      simp [hp, this]
  have hB3 : os.stat (s2.filter (fun e => !D.isPrefixOf e.1)) B = some Node.dir := by
    rw [hs3 B hBne, if_neg h1, hBdir]
  have hD3 : os.stat (s2.filter (fun e => !D.isPrefixOf e.1)) D = none := by
    rw [hs3 D hDne, if_pos (List.prefix_refl D)]
  have hP3 : os.stat (s2.filter (fun e => !D.isPrefixOf e.1)) D.dropLast = some Node.dir := by
    by_cases hnil : D.dropLast = []
    · rw [hnil]; simp [os.stat]
    · have hnot : ¬ D <+: D.dropLast := by
        intro h
        have := h.length_le
        have hlen := List.length_dropLast D
        have hpos : 0 < D.length := List.length_pos.mpr hDne
        omega
      rw [hs3 _ hnil, if_neg hnot, hpar]
  have hBD : B.isPrefixOf D = false := by
    rw [Bool.eq_false_iff]
    intro h
    exact h2 (List.isPrefixOf_iff_prefix.mp h)
  refine ⟨os.moved (s2.filter (fun e => !D.isPrefixOf e.1)) B D ++
    (s2.filter (fun e => !D.isPrefixOf e.1)).filter
      (fun e => !B.isPrefixOf e.1 && !D.isPrefixOf e.1), ?_, ?_, ?_⟩
  · simp only [restoreBackup, os.RemoveAll, os.Rename, hB3, hD3, hP3, hBD, isFileAt,
      Node.IsDir, Bool.and_false, Bool.false_eq_true, if_false, reduceCtorEq]
  · intro q
    have hne : D ++ q ≠ [] := by simp [hDne]
    have hneB : B ++ q ≠ [] := by simp [hBne]
    rw [stat_of_ne_nil _ _ hne, find_append, find_moved,
      find_filter_key _ (fun k => !B.isPrefixOf k && !D.isPrefixOf k)]
    have hpre : D.isPrefixOf (D ++ q) = true :=
      List.isPrefixOf_iff_prefix.mpr (List.prefix_append D q)
    have hrest : (if (!B.isPrefixOf (D ++ q) && !D.isPrefixOf (D ++ q)) = true
        then os.find (s2.filter (fun e => !D.isPrefixOf e.1)) (D ++ q) else none) = none := by
      simp [hpre]
    rw [hrest, ← stat_of_ne_nil _ _ hneB, hs3 _ hneB,
      if_neg (fun h => not_prefix_append_of_disjoint h2 h1 [] q (by simpa using h))]
    cases os.stat s2 (B ++ q) <;> rfl
  · intro q
    have hneB : B ++ q ≠ [] := by simp [hBne]
    have hnot : ¬ D <+: B ++ q :=
      fun h => not_prefix_append_of_disjoint h2 h1 [] q (by simpa using h)
    have hpre : B.isPrefixOf (B ++ q) = true :=
      List.isPrefixOf_iff_prefix.mpr (List.prefix_append B q)
    rw [stat_of_ne_nil _ _ hneB, find_append, find_moved_none _ _ _ _ hnot,
      find_filter_key _ (fun k => !B.isPrefixOf k && !D.isPrefixOf k)]
    simp [hpre]

theorem wellFormed_of_check (s : FS) (h : checkWellFormed s = true) : WellFormed s := by
  intro p n hne
  rw [stat_of_ne_nil s (p ++ [n]) (by simp)] at hne
  obtain ⟨e, he, hk⟩ := (find_ne_none_iff s (p ++ [n])).mp hne
  unfold checkWellFormed at h
  rw [List.all_eq_true] at h
  have := h e he
  rw [hk] at this
  simpa using this

theorem depth_of_check (s : FS) (k : Nat) (h : checkDepth s k = true) (D q : Path)
    (hne : os.stat s (D ++ q) ≠ none) : q.length < k := by
  unfold checkDepth at h
  rw [Bool.and_eq_true, List.all_eq_true] at h
  by_cases hnil : D ++ q = []
  · have hq : q = [] := (List.append_eq_nil.mp hnil).2
    subst hq
    simpa using h.1
  · rw [stat_of_ne_nil s _ hnil] at hne
    obtain ⟨e, he, hk⟩ := (find_ne_none_iff s (D ++ q)).mp hne
    have := h.2 e he
    rw [hk] at this
    simp at this
    omega

theorem stat_RemoveAll (s : FS) (D p : Path) (h : ¬ D <+: p) :
    os.stat (os.RemoveAll D s).2 p = os.stat s p := by
  by_cases hp : p = []
  · subst hp; simp [os.stat]
  · have hpre : D.isPrefixOf p = false := by
      rw [Bool.eq_false_iff]
      intro h1
      exact h (List.isPrefixOf_iff_prefix.mp h1)
    rw [stat_of_ne_nil _ _ hp, stat_of_ne_nil _ _ hp]
    simp only [os.RemoveAll]
    rw [find_filter_key s (fun k => !D.isPrefixOf k) p]
    simp [hpre]

theorem MkdirAllRev_fails (rp : List GoString) (s : FS) (hwf : WellFormed s)
    (h : ∃ a, a <+: rp.reverse ∧ isFileAt (os.stat s a) = true) :
    os.MkdirAllRev rp s = .error Errno.ENOTDIR := by
  induction rp with
  | nil =>
    obtain ⟨a, ha, hfile⟩ := h
    have : a = [] := by simpa using ha
    subst this
    simp [os.stat, isFileAt, Node.isFile] at hfile
  | cons n rp ih =>
    obtain ⟨a, ha, hfile⟩ := h
    have hrev : (n :: rp).reverse = rp.reverse ++ [n] := by simp
    rw [hrev] at ha
    cases hst : os.stat s (rp.reverse ++ [n]) with
    | some node =>
      cases node with
      | file d => simp only [os.MkdirAllRev, hrev, hst]
      | dir =>
        obtain ⟨c, hc⟩ := ha
        by_cases hcn : c = []
        · subst hcn
          rw [List.append_nil] at hc
          rw [hc, hst] at hfile
          simp [isFileAt, Node.isFile] at hfile
        · have hdir := wf_parent hwf a c hcn (by rw [hc, hst]; simp)
          rw [hdir] at hfile
          simp [isFileAt, Node.isFile] at hfile
    | none =>
      rcases List.prefix_concat_iff.mp ha with heq | hpre
      · rw [heq, hst] at hfile
        simp [isFileAt] at hfile
      · have := ih ⟨a, hpre, hfile⟩
        simp only [os.MkdirAllRev, hrev, hst, this]

theorem backupDirectory_fails (s0 : FS) (D B : Path) (depth : Nat) (hwf : WellFormed s0)
    (hD : os.stat s0 D = some Node.dir)
    (hdepth : ∀ q, os.stat s0 (D ++ q) ≠ none → q.length < depth)
    (h : ∃ a, a <+: B ∧ isFileAt (os.stat s0 a) = true) :
    (backupDirectory depth D B s0).1 ≠ none := by
  obtain ⟨d, hd⟩ : ∃ d, depth = d + 1 := by
    have := hdepth [] (by simp [hD])
    exact ⟨depth - 1, by simp at this; omega⟩
  subst hd
  obtain ⟨names, hread, _, _⟩ := readDirNames_dir s0 D hD
  have hRel : fspath.Rel D D = .ok [] := by
    have := Rel_self_append D []
    simpa using this
  have hJoin : fspath.Join B [] = B := by simp [fspath.Join]
  have hmk : os.MkdirAll B s0 = (some Errno.ENOTDIR, s0) := by
    have := MkdirAllRev_fails B.reverse s0 hwf (by simpa using h)
    simp [os.MkdirAll, this]
  have hw : fspath.walk (backupWalkFn D B) (d + 1) D Node.dir s0 = (some Errno.ENOTDIR, s0) := by
    rw [fspath.walk]
    simp [Node.IsDir, hread, backupWalkFn, hRel, hJoin, hmk]
  unfold backupDirectory fspath.Walk
  simp [Lstat_of_stat _ _ _ hD, hw]

/-- Claim C9. Let `s0` be a well-formed file system in which `D` is a
directory, nothing exists at `B`, `B` is neither `D` nor beneath it, and the
tree at `D` is less deep than the walk bound. Then `backupDirectory D B`
succeeds unless `B` lies under a regular file; and when it has succeeded, after
any change of the file system that touches only `D` and what is beneath it
(its deletion included), `restoreBackup B D` succeeds, leaves at every path
beneath `D` exactly the node and bytes `s0` had there, and leaves nothing at
`B`. -/
theorem backup_restore_roundtrip (s0 : FS) (D B : Path) (depth : Nat)
    (hwf : WellFormed s0) (hD : os.stat s0 D = some Node.dir) (hB : os.stat s0 B = none)
    (hout : ¬ D <+: B) (hdepth : ∀ q, os.stat s0 (D ++ q) ≠ none → q.length < depth) :
    ((∀ a, a <+: B → isFileAt (os.stat s0 a) = false) →
      (backupDirectory depth D B s0).1 = none) ∧
    ((backupDirectory depth D B s0).1 = none →
      ∀ s2 : FS,
        (∀ p, ¬ D <+: p → os.stat s2 p = os.stat (backupDirectory depth D B s0).2 p) →
        (restoreBackup B D s2).1 = none ∧
        (∀ q, os.stat (restoreBackup B D s2).2 (D ++ q) = os.stat s0 (D ++ q)) ∧
        (∀ q, os.stat (restoreBackup B D s2).2 (B ++ q) = none)) := by
  have h2 : ¬ B <+: D := by
    rintro ⟨c, hc⟩
    have := wf_none_below hwf B c hB
    rw [hc, hD] at this
    exact absurd this (by simp)
  have hDne : D ≠ [] := fun e => hout (e ▸ List.nil_prefix)
  constructor
  · intro hanc
    obtain ⟨s1, hs1, _, _⟩ := backupDirectory_spec s0 D B depth hwf hD hB hout hdepth hanc
    rw [hs1]
  · intro hok s2 hframe
    have hanc : ∀ a, a <+: B → isFileAt (os.stat s0 a) = false := by
      intro a ha
      by_contra hfile
      exact backupDirectory_fails s0 D B depth hwf hD hdepth
        ⟨a, ha, by simpa using hfile⟩ hok
    obtain ⟨s1, hs1, hcopy, hkeep⟩ :=
      backupDirectory_spec s0 D B depth hwf hD hB hout hdepth hanc
    rw [hs1] at hframe
    simp only at hframe
    have hBdir : os.stat s2 B = some Node.dir := by
      rw [hframe B hout]
      simpa [hD] using hcopy []
    have hparent : os.stat s0 D.dropLast = some Node.dir := by
      have hsplit := List.dropLast_append_getLast hDne
      exact (hwf D.dropLast (D.getLast hDne) (by rw [hsplit, hD]; simp)).1
    have hnotD : ¬ D <+: D.dropLast := by
      intro h
      have := h.length_le
      have hlen := List.length_dropLast D
      have hpos : 0 < D.length := List.length_pos.mpr hDne
      omega
    have hnotB : ¬ B <+: D.dropLast :=
      fun h => h2 (h.trans (List.dropLast_prefix D))
    have hpar : os.stat s2 D.dropLast = some Node.dir := by
      rw [hframe _ hnotD, hkeep _ hnotB (by rw [hparent]; simp), hparent]
    obtain ⟨s4, hs4, hD4, hB4⟩ := restoreBackup_spec s2 D B hout h2 hBdir hpar
    rw [hs4]
    refine ⟨rfl, ?_, hB4⟩
    intro q
    have hnot : ¬ D <+: B ++ q :=
      fun h => not_prefix_append_of_disjoint h2 hout [] q (by simpa using h)
    simp only
    rw [hD4 q, hframe _ hnot, hcopy q]

/-- Claim C9 on the sample installation, with the backup at the sibling path
`/opt/lumen.backup` and the target deleted after the backup: the restore
succeeds, the program and the data file are back, and nothing is left at the
backup path. -/
theorem backup_restore_roundtrip_witness :
    WellFormed sampleTree ∧
    os.stat sampleTree (pathOf ["opt", "lumen"]) = some Node.dir ∧
    os.stat sampleTree (pathOf ["opt", "lumen.backup"]) = none ∧
    ¬ pathOf ["opt", "lumen"] <+: pathOf ["opt", "lumen.backup"] ∧
    (backupDirectory 16 (pathOf ["opt", "lumen"]) (pathOf ["opt", "lumen.backup"])
      sampleTree).1 = none ∧
    (restoreBackup (pathOf ["opt", "lumen.backup"]) (pathOf ["opt", "lumen"])
      (os.RemoveAll (pathOf ["opt", "lumen"])
        (backupDirectory 16 (pathOf ["opt", "lumen"]) (pathOf ["opt", "lumen.backup"])
          sampleTree).2).2).1 = none ∧
    os.stat (restoreBackup (pathOf ["opt", "lumen.backup"]) (pathOf ["opt", "lumen"])
      (os.RemoveAll (pathOf ["opt", "lumen"])
        (backupDirectory 16 (pathOf ["opt", "lumen"]) (pathOf ["opt", "lumen.backup"])
          sampleTree).2).2).2 (pathOf ["opt", "lumen"] ++ pathOf ["data", "old.txt"])
      = os.stat sampleTree (pathOf ["opt", "lumen"] ++ pathOf ["data", "old.txt"]) ∧
    os.stat (restoreBackup (pathOf ["opt", "lumen.backup"]) (pathOf ["opt", "lumen"])
      (os.RemoveAll (pathOf ["opt", "lumen"])
        (backupDirectory 16 (pathOf ["opt", "lumen"]) (pathOf ["opt", "lumen.backup"])
          sampleTree).2).2).2 (pathOf ["opt", "lumen.backup"] ++ []) = none := by
  have hwf : WellFormed sampleTree := wellFormed_of_check sampleTree (by decide)
  have hD : os.stat sampleTree (pathOf ["opt", "lumen"]) = some Node.dir := by decide
  have hB : os.stat sampleTree (pathOf ["opt", "lumen.backup"]) = none := by decide
  have hout : ¬ pathOf ["opt", "lumen"] <+: pathOf ["opt", "lumen.backup"] := by decide
  have hanc : ∀ a, a <+: pathOf ["opt", "lumen.backup"] →
      isFileAt (os.stat sampleTree a) = false := by
    have hall : ∀ a ∈ (pathOf ["opt", "lumen.backup"]).inits,
        isFileAt (os.stat sampleTree a) = false := by decide
    exact fun a ha => hall a ((List.mem_inits _ _).mpr ha)
  have h := backup_restore_roundtrip sampleTree (pathOf ["opt", "lumen"])
    (pathOf ["opt", "lumen.backup"]) 16 hwf hD hB hout
    (depth_of_check sampleTree 16 (by decide) (pathOf ["opt", "lumen"]))
  have hr := h.2 (h.1 hanc) _ (fun p hp => stat_RemoveAll _ _ p hp)
  exact ⟨hwf, hD, hB, hout, h.1 hanc, hr.1, hr.2.1 _, hr.2.2 _⟩


/-! ## Extraction stays beneath the destination -/

theorem parsePath_eq_cleanElems (z : GoString)
    (h : strings.HasPrefix z [filepath.Separator] = true) :
    fspath.parsePath z = filepath.cleanElems z := by
  simp [fspath.parsePath, filepath.cleanElems, h]

theorem cleanStep_simulation (segs : List GoString) :
    ∀ (stT : List GoString) (k : Nat), (∀ a ∈ stT, a ≠ ['.', '.']) →
      ∃ k1 stT1,
        segs.foldl (filepath.cleanStep false) (stT ++ List.replicate k ['.', '.']) =
          stT1 ++ List.replicate k1 ['.', '.'] ∧
        segs.foldl (filepath.cleanStep true) stT = stT1 ∧
        (∀ a ∈ stT1, a ≠ ['.', '.']) := by
  induction segs with
  | nil => intro stT k h; exact ⟨k, stT, rfl, rfl, h⟩
  | cons e es ih =>
    intro stT k h
    simp only [List.foldl_cons]
    by_cases hskip : e = [] ∨ e = ['.']
    · have h1 : ∀ r st, filepath.cleanStep r st e = st := by
        intro r st; simp [filepath.cleanStep, hskip]
      rw [h1, h1]
      exact ih stT k h
    · by_cases hdd : e = ['.', '.']
      · subst hdd
        cases stT with
        | nil =>
          have hT : filepath.cleanStep true [] ['.', '.'] = [] := by
            simp [filepath.cleanStep]
          have hF : filepath.cleanStep false ([] ++ List.replicate k ['.', '.']) ['.', '.'] =
              [] ++ List.replicate (k + 1) ['.', '.'] := by
            cases k with
            | zero => simp [filepath.cleanStep]
            | succ k => simp [filepath.cleanStep, List.replicate_succ]
          rw [hT, hF]
          exact ih [] (k + 1) (by simp)
        | cons top rest =>
          have htop : top ≠ ['.', '.'] := h top (by simp)
          have hT : filepath.cleanStep true (top :: rest) ['.', '.'] = rest := by
            simp [filepath.cleanStep, htop]
          have hF : filepath.cleanStep false (top :: rest ++ List.replicate k ['.', '.'])
              ['.', '.'] = rest ++ List.replicate k ['.', '.'] := by
            simp [filepath.cleanStep, htop]
          rw [hT, hF]
          exact ih rest k (fun a ha => h a (List.mem_cons_of_mem _ ha))
      · have h1 : ∀ r st, filepath.cleanStep r st e = e :: st := by
          intro r st; simp [filepath.cleanStep, hskip, hdd]
        rw [h1, h1]
        have := ih (e :: stT) k (by
          intro a ha
          rcases List.mem_cons.mp ha with h2 | h2
          · rw [h2]; exact hdd
          · exact h a h2)
        simpa using this

theorem foldl_cleanStep_dots (k : Nat) :
    (List.replicate k ['.', '.']).foldl (filepath.cleanStep true) [] = [] := by
  induction k with
  | zero => rfl
  | succ k ih =>
    rw [List.replicate_succ, List.foldl_cons]
    have : filepath.cleanStep true [] ['.', '.'] = [] := by simp [filepath.cleanStep]
    rw [this, ih]

theorem parsePath_Clean (y : GoString) :
    fspath.parsePath (filepath.Clean y) = fspath.parsePath y := by
  obtain ⟨hpre, helems⟩ := Clean_roundtrip y
  cases hroot : strings.HasPrefix y [filepath.Separator] with
  | true =>
    rw [parsePath_eq_cleanElems _ (hpre.trans hroot), helems, parsePath_eq_cleanElems _ hroot]
  | false =>
    obtain ⟨hv, _, _⟩ := cleanElems_stack y
    rw [hroot] at hv
    obtain ⟨k1, T, hF, hT, hTdd⟩ :=
      cleanStep_simulation (strings.Split y filepath.Separator) [] 0 (by simp)
    simp only [List.replicate_zero, List.append_nil] at hF
    have hTvalid : ∀ n ∈ T.reverse, n ≠ [] ∧ n ≠ ['.'] ∧ n ≠ ['.', '.'] := by
      intro n hn
      have hn1 : n ∈ T := List.mem_reverse.mp hn
      have hval := hv n (by rw [hF]; exact List.mem_append_left _ hn1)
      exact ⟨hval.1, hval.2.1, hTdd n hn1⟩
    have hE : filepath.cleanElems y = List.replicate k1 ['.', '.'] ++ T.reverse := by
      simp [filepath.cleanElems, hroot, hF]
    have hEvalid : ∀ e ∈ filepath.cleanElems y, ValidElem e := by
      intro e he
      apply hv e
      simpa [filepath.cleanElems, hroot] using he
    have hy : fspath.parsePath y = T.reverse := by
      simp [fspath.parsePath, hT]
    have hfold : (filepath.cleanElems y).foldl (filepath.cleanStep true) [] = T := by
      rw [hE, List.foldl_append, foldl_cleanStep_dots, foldl_cleanStep_valid _ _ hTvalid]
      simp
    by_cases hnil : filepath.cleanElems y = []
    · have hclean : filepath.Clean y = ['.'] := by
        simp [filepath.Clean, hroot, strings.Join, hnil, List.intercalate]
      have hTnil : T = [] := by
        rw [← hfold, hnil]; rfl
      rw [hclean, hy, hTnil]
      decide
    · obtain ⟨e, es, hes⟩ := List.exists_cons_of_ne_nil hnil
      obtain ⟨c, t, hct, hcsep⟩ := intercalate_head _ e es hes (hEvalid e (by simp [hes]))
      have hclean : filepath.Clean y =
          [filepath.Separator].intercalate (filepath.cleanElems y) := by
        simp [filepath.Clean, hroot, strings.Join, hct]
      rw [hclean, hy]
      unfold fspath.parsePath
      rw [Split_intercalate _ _ hnil (fun e he => (hEvalid e he).2.2), hfold]

theorem dropWhile_head_fails {α : Type} (q : α → Bool) :
    ∀ (l : List α) (c : α) (rest : List α), l.dropWhile q = c :: rest → q c = false := by
  intro l
  induction l with
  | nil => intro c rest h; simp at h
  | cons a as ih =>
    intro c rest h
    by_cases ha : q a = true
    · rw [List.dropWhile_cons_of_pos ha] at h
      exact ih c rest h
    · rw [List.dropWhile_cons_of_neg ha] at h
      simp only [List.cons.injEq] at h
      rw [← h.1]
      simpa using ha

theorem parsePath_append_sep (y last : GoString) :
    fspath.parsePath (y ++ filepath.Separator :: last) =
      ((strings.Split last filepath.Separator).foldl (filepath.cleanStep true)
        (fspath.parsePath y).reverse).reverse := by
  simp [fspath.parsePath, Split_append_sep, List.foldl_append]

theorem cleanStep_comparable (st : List GoString) (e : GoString) :
    st.reverse <+: (filepath.cleanStep true st e).reverse ∨
      (filepath.cleanStep true st e).reverse <+: st.reverse := by
  unfold filepath.cleanStep
  split
  · exact Or.inl (List.prefix_refl _)
  · split
    · cases st with
      | nil => exact Or.inl (List.prefix_refl _)
      | cons top rest =>
        simp only
        split
        · left
          exact ⟨[e], by simp⟩
        · right
          rw [List.reverse_cons]
          exact List.prefix_append _ _
    · left
      rw [List.reverse_cons]
      exact List.prefix_append _ _

theorem parsePath_Dir_comparable (p : GoString) :
    fspath.parsePath (filepath.Dir p) <+: fspath.parsePath p ∨
      fspath.parsePath p <+: fspath.parsePath (filepath.Dir p) := by
  unfold filepath.Dir
  rw [parsePath_Clean]
  have hsplit := List.takeWhile_append_dropWhile (fun c => c != filepath.Separator) p.reverse
  cases hdw : p.reverse.dropWhile (fun c => c != filepath.Separator) with
  | nil =>
    left
    have : fspath.parsePath ([] : List Char).reverse = [] := by decide
    rw [this]
    exact List.nil_prefix
  | cons c rest =>
    have hc := dropWhile_head_fails _ _ _ _ hdw
    have hc1 : c = filepath.Separator := by simpa using hc
    subst hc1
    rw [hdw] at hsplit
    have hp : p = rest.reverse ++ filepath.Separator ::
        (p.reverse.takeWhile (fun c => c != filepath.Separator)).reverse := by
      have h1 := congrArg List.reverse hsplit
      rw [List.reverse_reverse] at h1
      conv_lhs => rw [← h1]
      simp
    have hlast : filepath.Separator ∉
        (p.reverse.takeWhile (fun c => c != filepath.Separator)).reverse := by
      intro hin
      have := List.mem_takeWhile_imp (List.mem_reverse.mp hin)
      simp at this
    generalize (p.reverse.takeWhile (fun c => c != filepath.Separator)).reverse = last at hp hlast
    have hdir : fspath.parsePath (filepath.Separator :: rest).reverse = fspath.parsePath rest.reverse := by
      have h1 : (filepath.Separator :: rest).reverse = rest.reverse ++ filepath.Separator :: [] := by
        simp
      rw [h1, parsePath_append_sep]
      simp [strings.Split, filepath.cleanStep]
    rw [hdir]
    have hfull : fspath.parsePath p =
        (filepath.cleanStep true (fspath.parsePath rest.reverse).reverse last).reverse := by
      rw [hp, parsePath_append_sep, Split_of_no_sep _ _ hlast]
      simp
    rw [hfull]
    have := cleanStep_comparable (fspath.parsePath rest.reverse).reverse last
    simpa using this

theorem Mkdir_ok (s s2 : FS) (p : Path) (h : os.Mkdir s p = .ok s2) :
    s2 = os.set s p Node.dir ∧ os.stat s p = none := by
  unfold os.Mkdir at h
  cases hst : os.stat s p with
  | some n => simp [hst] at h
  | none =>
    simp only [hst] at h
    cases hpar : os.stat s p.dropLast with
    | none => simp [hpar] at h
    | some n =>
      cases n with
      | dir => simp [hpar] at h; exact ⟨h.symm, rfl⟩
      | file d => simp [hpar] at h

theorem MkdirAllRev_frame (rp : List GoString) :
    ∀ (s s1 : FS), os.MkdirAllRev rp s = .ok s1 →
      ∀ x, os.stat s1 x ≠ os.stat s x → x <+: rp.reverse ∧ os.stat s x = none := by
  induction rp with
  | nil =>
    intro s s1 h x hx
    simp [os.MkdirAllRev] at h
    subst h
    exact absurd rfl hx
  | cons n rp ih =>
    intro s s1 h x hx
    have hrev : (n :: rp).reverse = rp.reverse ++ [n] := by simp
    unfold os.MkdirAllRev at h
    rw [hrev] at h ⊢
    cases hst : os.stat s (rp.reverse ++ [n]) with
    | some node =>
      cases node with
      | dir =>
        simp [hst] at h
        subst h
        exact absurd rfl hx
      | file d => simp [hst] at h
    | none =>
      simp only [hst] at h
      cases hrec : os.MkdirAllRev rp s with
      | error e => simp [hrec] at h
      | ok s0 =>
        simp only [hrec] at h
        have ih0 := ih s s0 hrec
        have hup : ∀ y, os.stat s0 y ≠ os.stat s y →
            y <+: rp.reverse ++ [n] ∧ os.stat s y = none := by
          intro y hy
          obtain ⟨h1, h2⟩ := ih0 y hy
          exact ⟨h1.trans (List.prefix_append _ _), h2⟩
        cases hmk : os.Mkdir s0 (rp.reverse ++ [n]) with
        | ok s2 =>
          simp [hmk] at h
          subst h
          obtain ⟨hs2, _⟩ := Mkdir_ok _ _ _ hmk
          subst hs2
          have hne : rp.reverse ++ [n] ≠ [] := by simp
          by_cases hxp : x = rp.reverse ++ [n]
          · subst hxp
            exact ⟨List.prefix_refl _, hst⟩
          · rw [stat_set _ _ _ _ hne, if_neg hxp] at hx
            exact hup x hx
        | error e =>
          simp only [hmk] at h
          cases hl : os.Lstat s0 (rp.reverse ++ [n]) with
          | error e1 => simp [hl] at h
          | ok node =>
            cases node with
            | dir =>
              simp [hl] at h
              subst h
              exact hup x hx
            | file d => simp [hl] at h

theorem MkdirAll_frame (p : Path) (s : FS) (x : Path)
    (hx : os.stat (os.MkdirAll p s).2 x ≠ os.stat s x) :
    x <+: p ∧ os.stat s x = none := by
  unfold os.MkdirAll at hx
  cases h : os.MkdirAllRev p.reverse s with
  | error e =>
    simp [h] at hx
  | ok s1 =>
    simp only [h] at hx
    have := MkdirAllRev_frame p.reverse s s1 h x hx
    simpa using this

theorem OpenFile_ok (s s2 : FS) (p : Path) (h : os.OpenFile s p = .ok s2) :
    s2 = os.set s p (Node.file []) ∧ os.stat s p ≠ some Node.dir := by
  unfold os.OpenFile at h
  cases hst : os.stat s p with
  | some n =>
    cases n with
    | dir => simp [hst] at h
    | file d => simp [hst] at h; exact ⟨h.symm, by simp⟩
  | none =>
    simp only [hst] at h
    cases hpar : os.stat s p.dropLast with
    | none => simp [hpar] at h
    | some n =>
      cases n with
      | dir => simp [hpar] at h; exact ⟨h.symm, by simp⟩
      | file d => simp [hpar] at h

theorem below_of_absent (s : FS) (D P x : Path)
    (hdest : ∀ a, a <+: D → os.stat s a = some Node.dir)
    (hDP : D <+: P) (hxP : x <+: P) (habs : os.stat s x = none) : D <+: x ∧ x ≠ D := by
  have hD := hdest D (List.prefix_refl _)
  have hne : x ≠ D := by
    intro e
    rw [e, hD] at habs
    cases habs
  rcases List.prefix_or_prefix_of_prefix hDP hxP with h | h
  · exact ⟨h, hne⟩
  · have := hdest x h
    rw [this] at habs
    cases habs

theorem extractEntry_frame (rootFolder dest : GoString) (f : ZipFile) (s : FS) (D : Path)
    (hdest : ∀ a, a <+: D → os.stat s a = some Node.dir)
    (hland : skipEntry rootFolder dest (entryPath rootFolder dest f) = false →
      D <+: fspath.parsePath (entryPath rootFolder dest f)) :
    ∀ x, os.stat (extractEntry rootFolder dest f s).2 x ≠ os.stat s x → D <+: x ∧ x ≠ D := by
  intro x hx
  unfold extractEntry at hx
  simp only at hx
  by_cases hskip : skipEntry rootFolder dest (entryPath rootFolder dest f) = true
  · rw [if_pos hskip] at hx
    exact absurd rfl hx
  · rw [if_neg hskip] at hx
    have hin := hland (by simpa using hskip)
    by_cases hdir : f.IsDir = true
    · rw [if_pos hdir] at hx
      obtain ⟨h1, h2⟩ := MkdirAll_frame _ _ _ hx
      exact below_of_absent s D _ x hdest hin h1 h2
    · rw [if_neg hdir] at hx
      have hmk : ∀ y, os.stat (os.MkdirAll (fspath.parsePath
          (filepath.Dir (entryPath rootFolder dest f))) s).2 y ≠ os.stat s y →
          D <+: y ∧ y ≠ D := by
        intro y hy
        obtain ⟨h1, h2⟩ := MkdirAll_frame _ _ _ hy
        rcases parsePath_Dir_comparable (entryPath rootFolder dest f) with hc | hc
        · exact below_of_absent s D _ y hdest hin (h1.trans hc) h2
        · exact below_of_absent s D _ y hdest (hin.trans hc) h1 h2
      rcases hm : os.MkdirAll (fspath.parsePath
          (filepath.Dir (entryPath rootFolder dest f))) s with ⟨err, s1⟩
      rw [hm] at hmk
      simp only at hmk
      rw [hm] at hx
      cases err with
      | some e => exact hmk x hx
      | none =>
        simp only at hx
        cases ho : os.OpenFile s1 (fspath.parsePath (entryPath rootFolder dest f)) with
        | error e =>
          rw [ho] at hx
          exact hmk x hx
        | ok s2 =>
          rw [ho] at hx
          simp only at hx
          obtain ⟨hs2, hnd⟩ := OpenFile_ok _ _ _ ho
          subst hs2
          have hne : fspath.parsePath (entryPath rootFolder dest f) ≠ [] := by
            intro e
            rw [e] at hnd
            exact hnd (by simp [os.stat])
          by_cases hxp : x = fspath.parsePath (entryPath rootFolder dest f)
          · subst hxp
            refine ⟨hin, ?_⟩
            intro e
            have hD := hdest D (List.prefix_refl _)
            by_cases hch : os.stat s1 D = os.stat s D
            · rw [e, hch, hD] at hnd
              exact hnd rfl
            · exact (hmk D hch).2 rfl
          · rw [stat_set _ _ _ _ hne, if_neg hxp, stat_set _ _ _ _ hne, if_neg hxp] at hx
            exact hmk x hx

theorem extractEntries_frame (rootFolder dest : GoString) (D : Path) (files : List ZipFile) :
    ∀ (s : FS), (∀ a, a <+: D → os.stat s a = some Node.dir) →
      (∀ f ∈ files, skipEntry rootFolder dest (entryPath rootFolder dest f) = false →
        D <+: fspath.parsePath (entryPath rootFolder dest f)) →
      ∀ x, os.stat (extractEntries rootFolder dest files s).2 x ≠ os.stat s x →
        D <+: x ∧ x ≠ D := by
  induction files with
  | nil =>
    intro s _ _ x hx
    exact absurd rfl hx
  | cons f fs ih =>
    intro s hdest hin x hx
    have h1 := extractEntry_frame rootFolder dest f s D hdest (hin f (by simp))
    unfold extractEntries at hx
    rcases he : extractEntry rootFolder dest f s with ⟨err, s1⟩
    rw [he] at h1 hx
    simp only at h1
    cases err with
    | some e => exact h1 x hx
    | none =>
      simp only at hx
      have hdest1 : ∀ a, a <+: D → os.stat s1 a = some Node.dir := by
        intro a ha
        by_cases hch : os.stat s1 a = os.stat s a
        · rw [hch]; exact hdest a ha
        · obtain ⟨h2, h3⟩ := h1 a hch
          exact absurd (List.IsPrefix.eq_of_length_le ha (h2.length_le)) h3
      by_cases hch : os.stat s1 x = os.stat s x
      · rw [← hch] at hx
        exact ih s1 hdest1 (fun g hg => hin g (List.mem_cons_of_mem _ hg)) x hx
      · exact h1 x hch

theorem foldl_cleanStep_staysBelow (segs : List GoString) :
    ∀ (acc base : List GoString), (∀ a ∈ acc, a ≠ ['.', '.']) →
      staysBelowFrom segs acc.length = true →
      ∃ acc1, segs.foldl (filepath.cleanStep true) (acc ++ base) = acc1 ++ base := by
  induction segs with
  | nil => intro acc base _ _; exact ⟨acc, rfl⟩
  | cons e es ih =>
    intro acc base hacc h
    rw [List.foldl_cons]
    unfold staysBelowFrom at h
    by_cases hskip : e = [] ∨ e = ['.']
    · rw [if_pos hskip] at h
      have : filepath.cleanStep true (acc ++ base) e = acc ++ base := by
        simp [filepath.cleanStep, hskip]
      rw [this]
      exact ih acc base hacc h
    · rw [if_neg hskip] at h
      by_cases hdd : e = ['.', '.']
      · rw [if_pos hdd] at h
        simp only [Bool.and_eq_true, decide_eq_true_eq] at h
        cases acc with
        | nil => simp at h
        | cons top rest =>
          have htop : top ≠ ['.', '.'] := hacc top (by simp)
          have : filepath.cleanStep true (top :: rest ++ base) e = rest ++ base := by
            simp [filepath.cleanStep, hdd, htop]
          rw [this]
          exact ih rest base (fun a ha => hacc a (List.mem_cons_of_mem _ ha))
            (by simpa using h.2)
      · rw [if_neg hdd] at h
        have : filepath.cleanStep true (acc ++ base) e = (e :: acc) ++ base := by
          simp [filepath.cleanStep, hskip, hdd]
        rw [this]
        exact ih (e :: acc) base (by
          intro a ha
          rcases List.mem_cons.mp ha with h2 | h2
          · rw [h2]; exact hdd
          · exact hacc a h2) (by simpa using h)

theorem parsePath_Join_staysBelow (dest rel : GoString) (h : nameStaysBelow rel = true) :
    fspath.parsePath dest <+: fspath.parsePath (filepath.Join [dest, rel]) := by
  by_cases hd : dest = []
  · subst hd
    have : fspath.parsePath [] = [] := by decide
    rw [this]
    exact List.nil_prefix
  · have hjoin : filepath.Join [dest, rel] =
        filepath.Clean (dest ++ filepath.Separator :: rel) := by
      simp [filepath.Join, hd, strings.Join, List.intercalate, List.intersperse]
    rw [hjoin, parsePath_Clean, parsePath_append_sep]
    obtain ⟨acc1, hacc1⟩ := foldl_cleanStep_staysBelow (strings.Split rel filepath.Separator) []
      (fspath.parsePath dest).reverse (by simp) h
    simp only [List.nil_append] at hacc1
    rw [hacc1, List.reverse_append, List.reverse_reverse]
    exact List.prefix_append _ _

theorem entryPath_eq_Join (rootFolder dest : GoString) (f : ZipFile) :
    entryPath rootFolder dest f = filepath.Join [dest, joinedName rootFolder f] := by
  unfold entryPath joinedName
  split <;> rfl

/-- A destination that is missing is made together with its missing parents
when a file is extracted: the sample archive extracted to `/srv/app/` on an
empty file system creates the directory `/srv`, which is not beneath the
destination. -/
theorem extractZip_makes_missing_parents :
    os.stat [] (pathOf ["srv"]) = none ∧
    os.stat (extractZip (.ok sampleArchive) "/srv/app/".toList []).2 (pathOf ["srv"]) =
      some Node.dir ∧
    ¬ fspath.parsePath "/srv/app/".toList <+: pathOf ["srv"] := by
  decide

/-- Claim C10, amended. Let the destination be an existing directory, its
parents included, and let every entry of the archive that `extractZip` does not
skip have a joined name (the name, without the root folder when one is
stripped) that never steps above the directory it starts from, or at least a
path that resolves to the destination or beneath it. Then whatever `extractZip` creates or writes, also through
`os.MkdirAll` on the parent of a file, is beneath the destination: nowhere else
does the file system change. Relative paths are resolved from the root
directory. -/
theorem extractZip_writes_within_dest (files : List ZipFile) (dest : GoString) (s : FS)
    (hdest : ∀ a, a <+: fspath.parsePath dest → os.stat s a = some Node.dir)
    (hnames : ∀ f ∈ files,
      skipEntry (detectRootFolder files) dest (entryPath (detectRootFolder files) dest f)
          = false →
        nameStaysBelow (joinedName (detectRootFolder files) f) = true ∨
          fspath.parsePath dest <+:
            fspath.parsePath (entryPath (detectRootFolder files) dest f)) :
    ∀ x, os.stat (extractZip (.ok files) dest s).2 x ≠ os.stat s x →
      fspath.parsePath dest <+: x ∧ x ≠ fspath.parsePath dest := by
  intro x hx
  have hin : ∀ f ∈ files,
      skipEntry (detectRootFolder files) dest (entryPath (detectRootFolder files) dest f)
          = false →
        fspath.parsePath dest <+:
          fspath.parsePath (entryPath (detectRootFolder files) dest f) := by
    intro f hf hskip
    rcases hnames f hf hskip with h | h
    · rw [entryPath_eq_Join]
      exact parsePath_Join_staysBelow dest _ h
    · exact h
  exact extractEntries_frame (detectRootFolder files) dest (fspath.parsePath dest) files s
    hdest hin x hx

/-- Claim C10, amended, on an archive with the name `LumenTV/data/../notes.txt`
extracted to the empty directory `/opt/lumen/`: the file is written to
`/opt/lumen/notes.txt`, beneath the destination. -/
theorem extractZip_writes_within_dest_witness :
    (∀ a, a <+: fspath.parsePath "/opt/lumen/".toList →
      os.stat emptyTarget a = some Node.dir) ∧
    (∀ f ∈ detourArchive,
      skipEntry (detectRootFolder detourArchive) "/opt/lumen/".toList
          (entryPath (detectRootFolder detourArchive) "/opt/lumen/".toList f) = false →
        nameStaysBelow (joinedName (detectRootFolder detourArchive) f) = true ∨
          fspath.parsePath "/opt/lumen/".toList <+:
            fspath.parsePath (entryPath (detectRootFolder detourArchive)
              "/opt/lumen/".toList f)) ∧
    os.stat (extractZip (.ok detourArchive) "/opt/lumen/".toList emptyTarget).2
      (pathOf ["opt", "lumen", "notes.txt"]) = some (Node.file "notes".toList) ∧
    (fspath.parsePath "/opt/lumen/".toList <+: pathOf ["opt", "lumen", "notes.txt"] ∧
      pathOf ["opt", "lumen", "notes.txt"] ≠ fspath.parsePath "/opt/lumen/".toList) :=
  have hdest : ∀ a, a <+: fspath.parsePath "/opt/lumen/".toList →
      os.stat emptyTarget a = some Node.dir := fun a ha =>
    (by decide : ∀ a ∈ (fspath.parsePath "/opt/lumen/".toList).inits,
      os.stat emptyTarget a = some Node.dir) a ((List.mem_inits _ _).mpr ha)
  ⟨hdest, by decide, by decide,
    extractZip_writes_within_dest detourArchive "/opt/lumen/".toList emptyTarget hdest
      (by decide) (pathOf ["opt", "lumen", "notes.txt"]) (by decide)⟩


/-! ## The rollback of `main` -/

theorem restoreBackup_inside_fails (s : FS) (t : Path) (n : GoString) :
    (restoreBackup (t ++ [n]) t s).1 = some Errno.ENOENT ∧
      ∀ q, t ++ q ≠ [] → os.stat (restoreBackup (t ++ [n]) t s).2 (t ++ q) = none := by
  have hs3 : ∀ q, t ++ q ≠ [] →
      os.stat (s.filter (fun e => !t.isPrefixOf e.1)) (t ++ q) = none := by
    intro q hq
    rw [stat_of_ne_nil _ _ hq, find_filter_key s (fun k => !t.isPrefixOf k)]
    have : t.isPrefixOf (t ++ q) = true :=
      List.isPrefixOf_iff_prefix.mpr (List.prefix_append t q)
    simp [this]
  have hold := hs3 [n] (by simp)
  have hres : restoreBackup (t ++ [n]) t s =
      (some Errno.ENOENT, s.filter (fun e => !t.isPrefixOf e.1)) := by
    simp only [restoreBackup, os.RemoveAll, os.Rename, hold]
  rw [hres]
  exact ⟨rfl, hs3⟩

theorem main_restore_fails (depth : Nat)
    (openReader : GoString → FS → Except Errno (List ZipFile))
    (executable : Except Errno GoString) (goos path file : GoString) (s : FS) :
    (main (osStages depth openReader executable goos) path file s).2.all
        Call.restoreNotFound = true ∧
      ((main (osStages depth openReader executable goos) path file s).2.any
          Call.isRestore = true →
        ∀ q, fspath.parsePath (resolveTarget path) ++ q ≠ [] →
          os.stat (main (osStages depth openReader executable goos) path file s).1
            (fspath.parsePath (resolveTarget path) ++ q) = none) := by
  obtain ⟨x, hx⟩ := resolveTarget_ends_with_separator path
  have hparse := parsePath_backup x
  rw [← hx] at hparse
  have hfail : ∀ s1, ((osStages depth openReader executable goos).restoreBackup
      (backupPathOf (resolveTarget path)) (resolveTarget path) s1).1 = some Errno.ENOENT := by
    intro s1
    simp only [osStages, hparse]
    exact (restoreBackup_inside_fails s1 _ _).1
  have hgone : ∀ s1 q, fspath.parsePath (resolveTarget path) ++ q ≠ [] →
      os.stat ((osStages depth openReader executable goos).restoreBackup
        (backupPathOf (resolveTarget path)) (resolveTarget path) s1).2
        (fspath.parsePath (resolveTarget path) ++ q) = none := by
    intro s1 q hq
    simp only [osStages, hparse]
    exact (restoreBackup_inside_fails s1 _ _).2 q hq
  generalize osStages depth openReader executable goos = ops at hfail hgone
  by_cases hp : path = []
  · simp [main, hp]
  by_cases hf : file = []
  · simp [main, hp, hf]
  by_cases ht : IsNotExist (ops.Stat (resolveTarget path) s) = true
  · simp [main, hp, hf, ht]
  by_cases hz : IsNotExist (ops.Stat file s) = true
  · simp [main, hp, hf, ht, hz]
  cases hx : ops.Executable s with
  | error e => simp [main, hp, hf, ht, hz, hx]
  | ok exe =>
    rcases hb : ops.backupDirectory (resolveTarget path) (backupPathOf (resolveTarget path)) s
      with ⟨_ | e, s1⟩
    · rcases hr : ops.removeAllFiles (resolveTarget path) exe s1 with ⟨_ | e, s2⟩
      · rcases he : ops.extractZip file (resolveTarget path) s2 with ⟨_ | e, s3⟩
        · simp [main, hp, hf, ht, hz, hx, hb, hr, he, Call.restoreNotFound, Call.isRestore]
        · simp only [main, hp, hf, ht, hz, hx, hb, hr, he, if_false]
          refine ⟨by simp [Call.restoreNotFound, hfail], fun _ q hq => hgone s3 q hq⟩
      · simp only [main, hp, hf, ht, hz, hx, hb, hr, if_false]
        refine ⟨by simp [Call.restoreNotFound, hfail], fun _ q hq => hgone s2 q hq⟩
    · simp [main, hp, hf, ht, hz, hx, hb, Call.restoreNotFound, Call.isRestore]

/-- Claim C1, on the code. In every run of `main` on the file system, each call
of `restoreBackup` returns `ENOENT`, and after such a call nothing exists at
the target directory or beneath it: the backup lies inside the target and is
deleted with it before the rename. On the sample installation with an archive
that cannot be opened, the backup and the purge succeed, `extractZip` fails,
`restoreBackup` fails, and the installation that held the program is gone. -/
theorem main_rollback_loses_target (depth : Nat)
    (openReader : GoString → FS → Except Errno (List ZipFile))
    (executable : Except Errno GoString) (goos path file : GoString) (s : FS) :
    (main (osStages depth openReader executable goos) path file s).2.all
      Call.restoreNotFound = true ∧
    ((main (osStages depth openReader executable goos) path file s).2.any
        Call.isRestore = true →
      ∀ q, fspath.parsePath (resolveTarget path) ++ q ≠ [] →
        os.stat (main (osStages depth openReader executable goos) path file s).1
          (fspath.parsePath (resolveTarget path) ++ q) = none) ∧
    (main badArchiveStages "/opt/lumen".toList "/tmp/update.zip".toList sampleTree).2 =
      [ Call.backupDirectory "/opt/lumen/".toList "/opt/lumen/.backup".toList none,
        Call.removeAllFiles "/opt/lumen/".toList "/opt/lumen/bin/updater".toList none,
        Call.extractZip "/tmp/update.zip".toList "/opt/lumen/".toList (some Errno.badArchive),
        Call.restoreBackup "/opt/lumen/.backup".toList "/opt/lumen/".toList
          (some Errno.ENOENT) ] ∧
    os.stat sampleTree (pathOf ["opt", "lumen", "LumenTV"])
      = some (Node.file "old program".toList) ∧
    os.stat (main badArchiveStages "/opt/lumen".toList "/tmp/update.zip".toList sampleTree).1
      (pathOf ["opt", "lumen"]) = none ∧
    os.stat (main badArchiveStages "/opt/lumen".toList "/tmp/update.zip".toList sampleTree).1
      (pathOf ["opt", "lumen", "LumenTV"]) = none ∧
    (main badArchiveStages "/opt/lumen".toList "/tmp/update.zip".toList sampleTree).1 =
      [ (pathOf ["opt"], Node.dir), (pathOf ["tmp"], Node.dir),
        (pathOf ["tmp", "update.zip"], Node.file "zip".toList) ] := by
  obtain ⟨h1, h2⟩ := main_restore_fails depth openReader executable goos path file s
  exact ⟨h1, h2, by decide, by decide, by decide, by decide, by decide⟩

end Updater
